import Mathlib

/-!
Verification of the two statistical text models of the Urdu story generation
repository: the BPE subword codec (`Phase_2_BPE_Tokenizer/bpe_tokenizer.py`)
and the interpolated trigram language model
(`Phase_3_Trigram_Model/trigram_model.py`).

The Python code is shallowly embedded:
* texts are `List Char`, word tokens are `String`, BPE symbols are `List Char`;
* Python floats are modelled as exact rationals `ℚ` (all the arithmetic in the
  source is ratios of counts and linear combinations of them);
* insertion-ordered Python dicts are association lists `List (κ × β)`;
* fallible operations return `Except String`.
-/

set_option maxHeartbeats 1000000

namespace Urdu

/-- Word token of the trigram language model (`corpus.split()` output). -/
abbrev Tok := String

section AssocUtil

variable {κ β : Type} [DecidableEq κ]

/-- `d.get(k)` on a Python dict modelled as an insertion-ordered assoc list. -/
def lookupA (k : κ) : List (κ × β) → Option β
  | [] => none
  | (k', v) :: rest => if k = k' then some v else lookupA k rest

/-- `d[k] = v` with Python dict semantics: overwrite in place, else append. -/
def setA (k : κ) (v : β) : List (κ × β) → List (κ × β)
  | [] => [(k, v)]
  | (k', v') :: rest => if k = k' then (k, v) :: rest else (k', v') :: setA k v rest

/-- `d[k] += n` on a `defaultdict(int)`: increment in place, else append. -/
def incrA (k : κ) (n : ℕ) : List (κ × ℕ) → List (κ × ℕ)
  | [] => [(k, n)]
  | (k', v) :: rest => if k = k' then (k', v + n) :: rest else (k', v) :: incrA k n rest

/-- `max(d, key=d.get)`: the first key attaining the maximal value
(Python's `max` keeps the earliest maximum; dicts iterate in insertion order). -/
def maxA : List (κ × ℕ) → Option (κ × ℕ)
  | [] => none
  | (k, v) :: rest =>
    match maxA rest with
    | none => some (k, v)
    | some (k', v') => if v' > v then some (k', v') else some (k, v)

theorem map_fst_map_pair {A B : Type} (d : List A) (f : A → B) :
    (d.map fun a => (a, f a)).map Prod.fst = d := by
  induction d with
  | nil => rfl
  | cons a l ih => simp [ih]

theorem lookupA_map_self (d : List κ) (f : κ → β) (k : κ) :
    lookupA k (d.map fun a => (a, f a)) = if k ∈ d then some (f k) else none := by
  induction d with
  | nil => simp [lookupA]
  | cons a rest ih =>
    by_cases h : k = a
    · subst h; simp [lookupA]
    · simp [lookupA, h, ih, List.mem_cons, Ne.symm h]

end AssocUtil

section SumUtil

theorem sum_map_add_distrib {α : Type} (l : List α) (f g : α → ℚ) :
    (l.map fun a => f a + g a).sum = (l.map f).sum + (l.map g).sum := by
  induction l with
  | nil => simp
  | cons x xs ih => simp only [List.map_cons, List.sum_cons, ih]; ring

theorem sum_map_div {α : Type} (l : List α) (f : α → ℚ) (T : ℚ) :
    (l.map fun a => f a / T).sum = (l.map f).sum / T := by
  induction l with
  | nil => simp
  | cons x xs ih => simp only [List.map_cons, List.sum_cons, ih, add_div]

variable {α : Type} [DecidableEq α]

/-- Number of occurrences of `x` in `l`: the multiplicity accumulated by the
source's `defaultdict(int)` counting loops. -/
def countOcc (x : α) (l : List α) : ℕ :=
  (l.filter fun y => y = x).length

theorem countOcc_nil (x : α) : countOcc x ([] : List α) = 0 := rfl

theorem countOcc_cons (x y : α) (l : List α) :
    countOcc x (y :: l) = countOcc x l + (if y = x then 1 else 0) := by
  unfold countOcc
  by_cases h : y = x
  · simp [List.filter_cons, h, Nat.add_comm]
  · simp [List.filter_cons, h]

theorem countOcc_pos_of_mem {x : α} {l : List α} (h : x ∈ l) : 0 < countOcc x l := by
  induction l with
  | nil => cases h
  | cons y ys ih =>
    rw [countOcc_cons]
    rcases List.mem_cons.mp h with h' | h'
    · simp [h'.symm]
    · exact Nat.lt_of_lt_of_le (ih h') (Nat.le_add_right _ _)

theorem sum_map_indicator_zero (d : List α) (x : α) (hx : x ∉ d) :
    (d.map fun a => if a = x then (1 : ℚ) else 0).sum = 0 := by
  induction d with
  | nil => simp
  | cons y ys ih =>
    have hyx : ¬(y = x) := fun h => hx (h ▸ List.mem_cons_self y ys)
    have hxs : x ∉ ys := fun h => hx (List.mem_cons_of_mem _ h)
    simp [hyx, ih hxs]

theorem sum_map_indicator (d : List α) (x : α) (hd : d.Nodup) (hx : x ∈ d) :
    (d.map fun a => if a = x then (1 : ℚ) else 0).sum = 1 := by
  induction d with
  | nil => cases hx
  | cons y ys ih =>
    rcases List.nodup_cons.mp hd with ⟨hy, hys⟩
    by_cases h : y = x
    · subst h
      simp [sum_map_indicator_zero ys y hy]
    · rcases List.mem_cons.mp hx with h' | h'
      · exact absurd h'.symm h
      · simp [h, ih hys h']

theorem sum_counts_eq_length (l d : List α) (hd : d.Nodup) (hsub : ∀ a ∈ l, a ∈ d) :
    (d.map fun a => ((countOcc a l : ℕ) : ℚ)).sum = l.length := by
  induction l with
  | nil => simp [countOcc_nil]
  | cons x l' ih =>
    have hx : x ∈ d := hsub x (List.mem_cons_self x l')
    have hsub' : ∀ a ∈ l', a ∈ d := fun a ha => hsub a (List.mem_cons_of_mem _ ha)
    have hcount : ∀ a : α, ((countOcc a (x :: l') : ℕ) : ℚ) =
        ((countOcc a l' : ℕ) : ℚ) + (if a = x then (1 : ℚ) else 0) := by
      intro a
      rw [countOcc_cons]
      by_cases h : x = a
      · simp [h]
      · have h2 : ¬(a = x) := fun hh => h hh.symm
        simp [h, h2]
    calc (d.map fun a => ((countOcc a (x :: l') : ℕ) : ℚ)).sum
        = (d.map fun a => ((countOcc a l' : ℕ) : ℚ) + (if a = x then (1 : ℚ) else 0)).sum := by
          simp only [hcount]
      _ = (d.map fun a => ((countOcc a l' : ℕ) : ℚ)).sum
            + (d.map fun a => if a = x then (1 : ℚ) else 0).sum :=
          sum_map_add_distrib d _ _
      _ = (l'.length : ℚ) + 1 := by rw [ih hsub', sum_map_indicator d x hd hx]
      _ = ((x :: l').length : ℚ) := by push_cast [List.length_cons]; ring

theorem sum_dedup_counts (l : List α) :
    (l.dedup.map fun a => ((countOcc a l : ℕ) : ℚ)).sum = l.length :=
  sum_counts_eq_length l l.dedup l.nodup_dedup (fun _ ha => List.mem_dedup.mpr ha)

theorem sum_pos_of_forall_pos (l : List ℚ) (hne : l ≠ []) (hpos : ∀ x ∈ l, 0 < x) :
    0 < l.sum := by
  induction l with
  | nil => exact absurd rfl hne
  | cons x xs ih =>
    rcases List.eq_nil_or_concat xs with h | _
    · subst h; simpa using hpos x (List.mem_cons_self x [])
    · rcases xs with _ | ⟨y, ys⟩
      · simpa using hpos x (List.mem_cons_self x [])
      · have h1 := hpos x (List.mem_cons_self _ _)
        have h2 := ih (by simp) (fun z hz => hpos z (List.mem_cons_of_mem _ hz))
        simpa [List.sum_cons] using add_pos h1 h2

end SumUtil

/-! ## Trigram language model (`trigram_model.py`)

N-gram extraction and the MLE probability tables of `TrigramModel.train`
(lines 56–109).  The source accumulates counts in `defaultdict(int)` and then
converts them to nested probability dicts; since dicts iterate in insertion
order, a count dict built from a stream equals the first-occurrence (`dedup`)
order of keys with the multiplicity (`count`) as value, which is how the
tables are written below. -/

/-- All adjacent pairs `(tokens[i], tokens[i+1])` (source lines 71–72). -/
def bigramsOf (ts : List Tok) : List (Tok × Tok) := ts.zip ts.tail

/-- All `((tokens[i], tokens[i+1]), tokens[i+2])` triples (source lines 74–76). -/
def trigramsOf (ts : List Tok) : List ((Tok × Tok) × Tok) :=
  (ts.zip ts.tail).zip (ts.tail.tail)

/-- Unigram MLE table: `count / total_tokens` (source lines 82–83). -/
def unigram_probs_of (ts : List Tok) : List (Tok × ℚ) :=
  ts.dedup.map fun t => (t, ((countOcc t ts : ℕ) : ℚ) / ts.length)

/-- Inner conditional table of one context, shared by the bigram and trigram
tables: the continuations of `ctx` in first-occurrence order, each with value
`count(ctx, next) / Σ_{w} count(ctx, w)` — the denominator
(`bigram_context_totals` / `trigram_context_totals`, source lines 86–98) is the
number of n-gram occurrences whose context is `ctx`. -/
def context_table {κ : Type} [DecidableEq κ] (ps : List (κ × Tok)) (ctx : κ) :
    List (Tok × ℚ) :=
  ((ps.filter fun p => p.1 = ctx).map Prod.snd).dedup.map fun w =>
    (w, ((countOcc (ctx, w) ps : ℕ) : ℚ) / (((ps.filter fun p => p.1 = ctx).length : ℕ) : ℚ))

/-- Conditional bigram MLE table `P(w2 | w1)` keyed by context `w1`
(source lines 86–93). -/
def bigram_probs_of (ts : List Tok) : List (Tok × List (Tok × ℚ)) :=
  ((bigramsOf ts).map Prod.fst).dedup.map fun w1 => (w1, context_table (bigramsOf ts) w1)

/-- Conditional trigram MLE table `P(w3 | (w1,w2))` keyed by the context pair
(source lines 96–103). -/
def trigram_probs_of (ts : List Tok) : List ((Tok × Tok) × List (Tok × ℚ)) :=
  ((trigramsOf ts).map Prod.fst).dedup.map fun ctx => (ctx, context_table (trigramsOf ts) ctx)

/-- State of `TrigramModel`: interpolation weights, the smoothed probability
tables built by `train`, and the scalar summaries (source lines 37–52). -/
structure TrigramModel where
  lambda1 : ℚ
  lambda2 : ℚ
  lambda3 : ℚ
  unigram_probs : List (Tok × ℚ)
  bigram_probs : List (Tok × List (Tok × ℚ))
  trigram_probs : List ((Tok × Tok) × List (Tok × ℚ))
  vocab_size : ℕ
  total_tokens : ℕ
deriving DecidableEq

/-- `TrigramModel.__init__` (source lines 29–52): the assert demands
`abs(λ1+λ2+λ3 - 1.0) < 1e-6`; a failed Python assert aborts construction,
modelled as `Except.error`.  Note the assert does not require the weights
to be non-negative. -/
def TrigramModel.init (l1 l2 l3 : ℚ) : Except String TrigramModel :=
  if |l1 + l2 + l3 - 1| < 1 / 1000000 then
    .ok ⟨l1, l2, l3, [], [], [], 0, 0⟩
  else
    .error "Interpolation weights must sum to 1."

/-- `TrigramModel.train` on an already-split token stream (source lines 56–109;
the split itself is `corpus.split()`).  Raises on fewer than 3 tokens.  The
claims below only concern models trained once from a fresh instance, which is
how the repository uses `train`; the tables are therefore built from the given
stream alone. -/
def TrigramModel.trainT (m : TrigramModel) (ts : List Tok) : Except String TrigramModel :=
  if ts.length < 3 then .error "Corpus too short to train a trigram model."
  else .ok { m with
    unigram_probs := unigram_probs_of ts
    bigram_probs := bigram_probs_of ts
    trigram_probs := trigram_probs_of ts
    vocab_size := ts.dedup.length
    total_tokens := ts.length }

/-- Construction followed by training: the reachability chain used by the
serving layer (construct with given weights, then train once). -/
def trainedOn (l1 l2 l3 : ℚ) (ts : List Tok) : Except String TrigramModel :=
  TrigramModel.init l1 l2 l3 >>= fun m => m.trainT ts

/-- `TrigramModel._interpolated_prob` (source lines 113–124).  `p_uni` falls
back to `1.0 / max(vocab_size, 1)`; the bigram term looks up context `w2` and
falls back to `p_uni` (the first assignment on line 119 is dead code,
immediately overwritten by line 121); the trigram term falls back to `0.0`. -/
def TrigramModel.interpolated_prob (m : TrigramModel) (w1 w2 w3 : Tok) : ℚ :=
  let pUni := (lookupA w3 m.unigram_probs).getD (1 / (max m.vocab_size 1 : ℕ))
  let pBi := (lookupA w3 ((lookupA w2 m.bigram_probs).getD [])).getD pUni
  let pTri := (lookupA w3 ((lookupA (w1, w2) m.trigram_probs).getD [])).getD 0
  m.lambda3 * pTri + m.lambda2 * pBi + m.lambda1 * pUni

/-- `TrigramModel._next_token_dist` (source lines 128–144): candidates are the
trigram continuations of `(w1,w2)`, the bigram continuations of `w2`, and the
whole unigram vocabulary (a Python set union; modelled as a deduplicated list
— the set's iteration order is implementation-defined, and no claim below
depends on the order).  The interpolated scores are renormalised only when
their sum is positive. -/
def TrigramModel.next_token_dist (m : TrigramModel) (w1 w2 : Tok) : List (Tok × ℚ) :=
  let cands := (((lookupA (w1, w2) m.trigram_probs).getD []).map Prod.fst
    ++ ((lookupA w2 m.bigram_probs).getD []).map Prod.fst
    ++ m.unigram_probs.map Prod.fst).dedup
  let dist := cands.map fun w3 => (w3, m.interpolated_prob w1 w2 w3)
  let total := (dist.map Prod.snd).sum
  if 0 < total then dist.map (fun p => (p.1, p.2 / total)) else dist

/-- The end-of-text control token (`TrigramModel.EOT_TOKEN`). -/
def EOT_TOKEN : Tok := "<EOT>"

/-- Renormalise a distribution by its total, as `{k: v / total for ...}` does;
Python raises `ZeroDivisionError` when the total is zero (the values are
floats, so only an exactly-zero total raises). -/
def renormalize (dist : List (Tok × ℚ)) : Except String (List (Tok × ℚ)) :=
  let total := (dist.map Prod.snd).sum
  if total = 0 then .error "float division by zero"
  else .ok (dist.map fun p => (p.1, p.2 / total))

/-- `sorted(dist.items(), key=lambda x: -x[1])`: Python's stable ascending
sort under the negated value, i.e. a stable descending sort by value. -/
def sortByValDesc (dist : List (Tok × ℚ)) : List (Tok × ℚ) :=
  List.insertionSort (fun a b : Tok × ℚ => b.2 ≤ a.2) dist

/-- The body of the sampling loop in `TrigramModel.generate`
(source lines 179–207), one iteration per unit of fuel.

The stochastic and real-valued parts are abstracted soundly:
* `tempMap` stands for `v ** (1.0 / temperature)`; it is applied exactly when
  `applyTemp` is true (the source's `temperature != 1.0` test), followed by
  the source's renormalisation;
* `pick step` is the oracle for `random.choices`: the sampled element is the
  entry at index `pick step % len(dist)`; quantifying over all oracles covers
  every possible outcome of the weighted draw.  `random.choices` raises
  `ValueError` when the total of the weights is not positive, modelled by the
  `total ≤ 0` error branch. -/
def generateLoop (m : TrigramModel) (applyTemp : Bool) (tempMap : ℚ → ℚ)
    (topK : Option ℕ) (pick : ℕ → ℕ) :
    ℕ → ℕ → List Tok → Except String (List Tok)
  | 0, _, tokens => .ok tokens
  | n + 1, step, tokens =>
    let w1 := tokens.getD (tokens.length - 2) ""
    let w2 := tokens.getD (tokens.length - 1) ""
    let dist := m.next_token_dist w1 w2
    if dist = [] then .ok tokens
    else
      match (if applyTemp then renormalize (dist.map fun p => (p.1, tempMap p.2))
             else .ok dist) with
      | .error e => .error e
      | .ok dist1 =>
        match (match topK with
               | some k => renormalize ((sortByValDesc dist1).take k)
               | none => .ok dist1) with
        | .error e => .error e
        | .ok dist2 =>
          let total := (dist2.map Prod.snd).sum
          if total ≤ 0 then .error "Total of weights must be greater than zero"
          else
            let next := (dist2.getD (pick step % dist2.length) ("", 0)).1
            if next = EOT_TOKEN then .ok (tokens ++ [next])
            else generateLoop m applyTemp tempMap topK pick n (step + 1) (tokens ++ [next])

/-- `TrigramModel.generate` (source lines 148–209): refuses a seed of fewer
than 2 tokens, refuses an untrained model (`not self._unigram_probs`), then
samples up to `max_length` tokens, stopping early when `<EOT>` is drawn.
The result is the full token sequence (the source joins it with spaces). -/
def TrigramModel.generate (m : TrigramModel) (seed : List Tok) (maxLength : ℕ)
    (applyTemp : Bool) (tempMap : ℚ → ℚ) (topK : Option ℕ) (pick : ℕ → ℕ) :
    Except String (List Tok) :=
  if seed.length < 2 then .error "Seed must contain at least 2 tokens."
  else if m.unigram_probs = [] then .error "Model not trained yet."
  else generateLoop m applyTemp tempMap topK pick maxLength 0 seed

/-- The per-window floored probabilities of `TrigramModel.perplexity`
(source lines 213–230): for every trigram window of the test corpus,
`max(P, 1e-10)`.  The source then returns `exp(-Σ log p / count)`; `log` and
`exp` are total transcendental wrappers around this list with no failure
path, so the `Except` behaviour (which is all the claims need) is exactly
that of `perplexity`.  Note the source checks only the corpus length — it
never checks that the model is trained. -/
def TrigramModel.perplexityProbs (m : TrigramModel) (ts : List Tok) :
    Except String (List ℚ) :=
  if ts.length < 3 then .error "Test corpus too short."
  else .ok ((trigramsOf ts).map fun t =>
    max (m.interpolated_prob t.1.1 t.1.2 t.2) (1 / 10 ^ 10))

/-- The payload of the JSON file written by `TrigramModel.save`
(source lines 234–259). -/
structure TrigramSaved where
  lambda1 : ℚ
  lambda2 : ℚ
  lambda3 : ℚ
  unigram_probs : List (Tok × ℚ)
  bigram_probs : List (Tok × List (Tok × ℚ))
  trigram_probs : List ((Tok × Tok) × List (Tok × ℚ))
  vocab_size : ℕ
  total_tokens : ℕ
deriving DecidableEq

/-- `TrigramModel.load` (source lines 261–279): every field is restored
verbatim from the file — there is no validation of any kind (in particular
none of the constructor's weight checking).  The source's tab-joined trigram
context keys are modelled structurally as pairs (`tuple(k.split("\t"))`
reconstructs them exactly when tokens contain no tab). -/
def TrigramModel.load (s : TrigramSaved) : TrigramModel :=
  ⟨s.lambda1, s.lambda2, s.lambda3, s.unigram_probs, s.bigram_probs,
   s.trigram_probs, s.vocab_size, s.total_tokens⟩

/-! ### Characterisation of the trained probability tables -/

section TableLemmas

theorem lookupA_unigram (ts : List Tok) (w : Tok) :
    lookupA w (unigram_probs_of ts) =
      if w ∈ ts then some (((countOcc w ts : ℕ) : ℚ) / ts.length) else none := by
  unfold unigram_probs_of
  rw [lookupA_map_self]
  by_cases h : w ∈ ts <;> simp [h, List.mem_dedup]

theorem count_map_snd_filter {κ β : Type} [DecidableEq κ] [DecidableEq β]
    (ps : List (κ × β)) (c : κ) (w : β) :
    countOcc w ((ps.filter fun p => p.1 = c).map Prod.snd) = countOcc (c, w) ps := by
  induction ps with
  | nil => simp [countOcc_nil]
  | cons p rest ih =>
    obtain ⟨a, b⟩ := p
    rw [countOcc_cons]
    by_cases ha : a = c
    · subst ha
      rw [List.filter_cons_of_pos (by simp), List.map_cons, countOcc_cons, ih]
      by_cases hb : b = w
      · simp [hb]
      · have : ¬((a, b) = (a, w)) := by simp [hb]
        simp [hb, this]
    · have hne : ¬((a, b) = (c, w)) := by simp [ha]
      rw [List.filter_cons_of_neg (by simp [ha]), ih]
      simp [hne]

theorem mem_map_snd_filter_iff {κ β : Type} [DecidableEq κ] [DecidableEq β]
    (ps : List (κ × β)) (c : κ) (w : β) :
    w ∈ (ps.filter fun p => p.1 = c).map Prod.snd ↔ (c, w) ∈ ps := by
  constructor
  · rintro h
    rcases List.mem_map.mp h with ⟨p, hp, hsnd⟩
    rcases List.mem_filter.mp hp with ⟨hmem, hfst⟩
    have : p = (c, w) := by
      obtain ⟨x, y⟩ := p
      simp only [decide_eq_true_eq] at hfst
      simp only at hsnd
      simp [hfst, hsnd]
    exact this ▸ hmem
  · intro h
    exact List.mem_map.mpr ⟨(c, w), List.mem_filter.mpr ⟨h, by simp⟩, rfl⟩

theorem lookupA_context_table {κ : Type} [DecidableEq κ]
    (ps : List (κ × Tok)) (ctx : κ) (w : Tok) :
    lookupA w (context_table ps ctx) =
      if (ctx, w) ∈ ps then
        some (((countOcc (ctx, w) ps : ℕ) : ℚ) /
          (((ps.filter fun p => p.1 = ctx).length : ℕ) : ℚ))
      else none := by
  unfold context_table
  rw [lookupA_map_self]
  by_cases h : (ctx, w) ∈ ps
  · simp [h, List.mem_dedup, (mem_map_snd_filter_iff ps ctx w).mpr h]
  · have : w ∉ ((ps.filter fun p => p.1 = ctx).map Prod.snd).dedup := by
      rw [List.mem_dedup, mem_map_snd_filter_iff]; exact h
    simp [h, this]

theorem lookupA_outer_table {κ : Type} [DecidableEq κ]
    (ps : List (κ × Tok)) (ctx : κ) :
    lookupA ctx ((ps.map Prod.fst).dedup.map fun c => (c, context_table ps c)) =
      if ctx ∈ ps.map Prod.fst then some (context_table ps ctx) else none := by
  rw [lookupA_map_self]
  by_cases h : ctx ∈ ps.map Prod.fst <;> simp [h, List.mem_dedup]

theorem filter_fst_ne_nil {κ β : Type} [DecidableEq κ]
    (ps : List (κ × β)) (ctx : κ) (h : ctx ∈ ps.map Prod.fst) :
    (ps.filter fun p => p.1 = ctx) ≠ [] := by
  rcases List.mem_map.mp h with ⟨p, hp, hfst⟩
  intro hnil
  have : p ∈ ps.filter fun p => p.1 = ctx :=
    List.mem_filter.mpr ⟨hp, by simp [hfst]⟩
  rw [hnil] at this
  cases this

theorem context_table_sum {κ : Type} [DecidableEq κ]
    (ps : List (κ × Tok)) (ctx : κ) (h : ctx ∈ ps.map Prod.fst) :
    ((context_table ps ctx).map Prod.snd).sum = 1 := by
  unfold context_table
  set l := (ps.filter fun p => p.1 = ctx).map Prod.snd with hl
  have hcnt : ∀ w : Tok, ((countOcc (ctx, w) ps : ℕ) : ℚ) = ((countOcc w l : ℕ) : ℚ) := by
    intro w; rw [hl, count_map_snd_filter]
  have hlen : ((ps.filter fun p => p.1 = ctx).length : ℚ) = (l.length : ℚ) := by
    rw [hl, List.length_map]
  have hlne : l ≠ [] := by
    rw [hl]
    intro hnil
    exact filter_fst_ne_nil ps ctx h (List.map_eq_nil_iff.mp hnil)
  have hlpos : (0 : ℚ) < l.length := by
    have : 0 < l.length := List.length_pos.mpr hlne
    exact_mod_cast this
  rw [List.map_map]
  have : ((l.dedup.map fun w =>
      ((countOcc (ctx, w) ps : ℕ) : ℚ) /
        (((ps.filter fun p => p.1 = ctx).length : ℕ) : ℚ))).sum = 1 := by
    simp only [hcnt, hlen]
    rw [sum_map_div, sum_dedup_counts]
    exact div_self (ne_of_gt hlpos)
  simpa [Function.comp] using this

end TableLemmas

section TrainedElim

theorem trainT_ok_elim {m₀ m : TrigramModel} {ts : List Tok}
    (h : m₀.trainT ts = .ok m) :
    3 ≤ ts.length ∧
      m = { m₀ with
        unigram_probs := unigram_probs_of ts
        bigram_probs := bigram_probs_of ts
        trigram_probs := trigram_probs_of ts
        vocab_size := ts.dedup.length
        total_tokens := ts.length } := by
  unfold TrigramModel.trainT at h
  by_cases hlt : ts.length < 3
  · simp [hlt] at h
  · rw [if_neg hlt] at h
    exact ⟨Nat.le_of_not_lt hlt, (Except.ok.inj h).symm⟩

theorem init_ok_elim {l1 l2 l3 : ℚ} {m : TrigramModel}
    (h : TrigramModel.init l1 l2 l3 = .ok m) :
    |l1 + l2 + l3 - 1| < 1 / 1000000 ∧ m = ⟨l1, l2, l3, [], [], [], 0, 0⟩ := by
  unfold TrigramModel.init at h
  by_cases hs : |l1 + l2 + l3 - 1| < 1 / 1000000
  · rw [if_pos hs] at h
    exact ⟨hs, (Except.ok.inj h).symm⟩
  · rw [if_neg hs] at h
    exact Except.noConfusion h

theorem trainedOn_ok_elim {l1 l2 l3 : ℚ} {ts : List Tok} {m : TrigramModel}
    (h : trainedOn l1 l2 l3 ts = .ok m) :
    |l1 + l2 + l3 - 1| < 1 / 1000000 ∧ 3 ≤ ts.length ∧
      m = ⟨l1, l2, l3, unigram_probs_of ts, bigram_probs_of ts, trigram_probs_of ts,
        ts.dedup.length, ts.length⟩ := by
  unfold trainedOn at h
  cases hinit : TrigramModel.init l1 l2 l3 with
  | error e => rw [hinit] at h; exact absurd h (by simp [Bind.bind, Except.bind])
  | ok m₀ =>
    rw [hinit] at h
    have h' : m₀.trainT ts = .ok m := by
      simpa [Bind.bind, Except.bind] using h
    rcases init_ok_elim hinit with ⟨habs, hm₀⟩
    rcases trainT_ok_elim h' with ⟨hlen, hm⟩
    subst hm₀
    exact ⟨habs, hlen, hm⟩

end TrainedElim

/-- Unigram table sums to one over the vocabulary. -/
theorem unigram_probs_sum (ts : List Tok) (hne : ts ≠ []) :
    ((unigram_probs_of ts).map Prod.snd).sum = 1 := by
  unfold unigram_probs_of
  rw [List.map_map]
  have hlen : ((ts.length : ℕ) : ℚ) ≠ 0 := by
    have : 0 < ts.length := List.length_pos.mpr hne
    exact_mod_cast Nat.pos_iff_ne_zero.mp this
  have : ((ts.dedup.map fun t => ((countOcc t ts : ℕ) : ℚ) / ts.length)).sum = 1 := by
    rw [sum_map_div, sum_dedup_counts]
    exact div_self hlen
  simpa [Function.comp] using this

/-- C10: for every trained language model, every stored probability table is
itself normalized — the unigram probabilities sum to 1 over the vocabulary,
and for every bigram context and every trigram context present in the tables
the stored continuation probabilities of that context sum to 1, exactly as
rationals. -/
theorem claim_C10_tables_normalized (m₀ m : TrigramModel) (ts : List Tok)
    (h : m₀.trainT ts = .ok m) :
    (m.unigram_probs.map Prod.snd).sum = 1 ∧
      (∀ e ∈ m.bigram_probs, (e.2.map Prod.snd).sum = 1) ∧
      (∀ e ∈ m.trigram_probs, (e.2.map Prod.snd).sum = 1) := by
  rcases trainT_ok_elim h with ⟨hlen, hm⟩
  subst hm
  have hne : ts ≠ [] := by
    intro hnil; rw [hnil] at hlen; simp at hlen
  refine ⟨unigram_probs_sum ts hne, ?_, ?_⟩
  · intro e he
    unfold bigram_probs_of at he
    rcases List.mem_map.mp he with ⟨w1, hw1, rfl⟩
    exact context_table_sum _ w1 (List.mem_dedup.mp hw1)
  · intro e he
    unfold trigram_probs_of at he
    rcases List.mem_map.mp he with ⟨ctx, hctx, rfl⟩
    exact context_table_sum _ ctx (List.mem_dedup.mp hctx)

/-- Witness for C10 at the corpus `"a b c"`. -/
theorem claim_C10_witness :
    ((⟨1/10, 3/10, 6/10, unigram_probs_of ["a", "b", "c"],
        bigram_probs_of ["a", "b", "c"], trigram_probs_of ["a", "b", "c"], 3, 3⟩ :
          TrigramModel).unigram_probs.map Prod.snd).sum = 1 ∧
      (∀ e ∈ (⟨1/10, 3/10, 6/10, unigram_probs_of ["a", "b", "c"],
        bigram_probs_of ["a", "b", "c"], trigram_probs_of ["a", "b", "c"], 3, 3⟩ :
          TrigramModel).bigram_probs, (e.2.map Prod.snd).sum = 1) ∧
      (∀ e ∈ (⟨1/10, 3/10, 6/10, unigram_probs_of ["a", "b", "c"],
        bigram_probs_of ["a", "b", "c"], trigram_probs_of ["a", "b", "c"], 3, 3⟩ :
          TrigramModel).trigram_probs, (e.2.map Prod.snd).sum = 1) :=
  claim_C10_tables_normalized ⟨1/10, 3/10, 6/10, [], [], [], 0, 0⟩ _ ["a", "b", "c"] rfl

/-! ### The interpolation formula (claim C1)

The following three definitions follow the words of the specification, for
comparison against the code's `_interpolated_prob`: the unigram MLE with a
uniform `1/vocab_size` fallback, the conditional bigram MLE (0 when
unobserved, as an MLE is), and the trigram MLE that is 0 when context or
continuation is unobserved. -/

/-- `P_uni(w3)` as the spec words it: unigram MLE probability, falling back
to a uniform `1 / vocab_size` when `w3` is unseen. -/
def P_uni_claim (ts : List Tok) (w3 : Tok) : ℚ :=
  if w3 ∈ ts then ((countOcc w3 ts : ℕ) : ℚ) / ts.length else 1 / ts.dedup.length

/-- `P_bi(w3|w2)` as the claim words it: the conditional bigram MLE
probability, which is 0 for an unobserved bigram. -/
def P_bi_claim (ts : List Tok) (w2 w3 : Tok) : ℚ :=
  if (w2, w3) ∈ bigramsOf ts then
    ((countOcc (w2, w3) (bigramsOf ts) : ℕ) : ℚ) /
      ((((bigramsOf ts).filter fun p => p.1 = w2).length : ℕ) : ℚ)
  else 0

/-- `P_tri(w3|w1,w2)` as the claim words it: 0.0 when the trigram context or
continuation is unobserved, the MLE otherwise. -/
def P_tri_claim (ts : List Tok) (w1 w2 w3 : Tok) : ℚ :=
  if ((w1, w2), w3) ∈ trigramsOf ts then
    ((countOcc ((w1, w2), w3) (trigramsOf ts) : ℕ) : ℚ) /
      ((((trigramsOf ts).filter fun p => p.1 = (w1, w2)).length : ℕ) : ℚ)
  else 0

/-- The interpolated probability exactly as claim C1 states it. -/
def interp_claim (l1 l2 l3 : ℚ) (ts : List Tok) (w1 w2 w3 : Tok) : ℚ :=
  l1 * P_uni_claim ts w3 + l2 * P_bi_claim ts w2 w3 + l3 * P_tri_claim ts w1 w2 w3

/-- The bigram term the code actually computes (source line 121): the
conditional bigram MLE when `(w2,w3)` was observed, otherwise a fallback to
the same `p_uni` term (including its uniform fallback) — not 0. -/
def P_bi_code (ts : List Tok) (w2 w3 : Tok) : ℚ :=
  if (w2, w3) ∈ bigramsOf ts then
    ((countOcc (w2, w3) (bigramsOf ts) : ℕ) : ℚ) /
      ((((bigramsOf ts).filter fun p => p.1 = w2).length : ℕ) : ℚ)
  else P_uni_claim ts w3

/-- Evaluation rule for the construct-then-train chain. -/
theorem trainedOn_eq_ok (l1 l2 l3 : ℚ) (ts : List Tok)
    (h : |l1 + l2 + l3 - 1| < 1 / 1000000) (h2 : ¬ts.length < 3) :
    trainedOn l1 l2 l3 ts =
      .ok ⟨l1, l2, l3, unigram_probs_of ts, bigram_probs_of ts, trigram_probs_of ts,
        ts.dedup.length, ts.length⟩ := by
  unfold trainedOn TrigramModel.init
  rw [if_pos h]
  show (⟨l1, l2, l3, [], [], [], 0, 0⟩ : TrigramModel).trainT ts = _
  unfold TrigramModel.trainT
  rw [if_neg h2]

/-- Counterexample to C1: on the model trained from `"a b c"` with the
default weights, the code's probability of `"a"` after context
`("a","b")` is `2/15` — the unobserved bigram `("b","a")` falls back to
`p_uni`, not to the MLE value 0 — while the claim's formula gives `1/30`. -/
theorem claim_C1_counterexample :
    trainedOn (1/10) (3/10) (6/10) ["a", "b", "c"] =
      .ok ⟨1/10, 3/10, 6/10, unigram_probs_of ["a", "b", "c"],
        bigram_probs_of ["a", "b", "c"], trigram_probs_of ["a", "b", "c"], 3, 3⟩ ∧
      (⟨1/10, 3/10, 6/10, unigram_probs_of ["a", "b", "c"],
        bigram_probs_of ["a", "b", "c"], trigram_probs_of ["a", "b", "c"], 3, 3⟩ :
          TrigramModel).interpolated_prob "a" "b" "a" = 2/15 ∧
      interp_claim (1/10) (3/10) (6/10) ["a", "b", "c"] "a" "b" "a" = 1/30 ∧
      (2/15 : ℚ) ≠ 1/30 := by
  refine ⟨trainedOn_eq_ok _ _ _ _ (by norm_num) (by decide), ?_, ?_, by norm_num⟩
  · simp only [TrigramModel.interpolated_prob, unigram_probs_of, bigram_probs_of,
      trigram_probs_of, context_table, bigramsOf, trigramsOf, lookupA]
    simp +decide [List.dedup, countOcc, List.filter, lookupA]
    norm_num
  · simp only [interp_claim, P_uni_claim, P_bi_claim, P_tri_claim, bigramsOf, trigramsOf]
    simp +decide [List.dedup, countOcc, List.filter]
    norm_num

/-- The unigram term of `_interpolated_prob` equals the spec's `P_uni`. -/
theorem code_p_uni_eq (ts : List Tok) (hne : ts ≠ []) (w3 : Tok) :
    (lookupA w3 (unigram_probs_of ts)).getD (1 / ((max ts.dedup.length 1 : ℕ) : ℚ)) =
      P_uni_claim ts w3 := by
  rw [lookupA_unigram]
  have hdedup : 1 ≤ ts.dedup.length := by
    have : ts.dedup ≠ [] := by
      intro hnil
      exact hne ((List.dedup_eq_nil ts).mp hnil)
    exact List.length_pos.mpr this
  by_cases h : w3 ∈ ts
  · simp [h, P_uni_claim]
  · simp [h, P_uni_claim, Nat.max_eq_left hdedup]

/-- Closed form of `_interpolated_prob` on any trained model. -/
theorem interp_trained_eq (l1 l2 l3 : ℚ) (ts : List Tok) (m : TrigramModel)
    (h : trainedOn l1 l2 l3 ts = .ok m) (w1 w2 w3 : Tok) :
    m.interpolated_prob w1 w2 w3 =
      l1 * P_uni_claim ts w3 + l2 * P_bi_code ts w2 w3 + l3 * P_tri_claim ts w1 w2 w3 := by
  rcases trainedOn_ok_elim h with ⟨-, hlen, hm⟩
  subst hm
  have hne : ts ≠ [] := by
    intro hnil; rw [hnil] at hlen; simp at hlen
  unfold TrigramModel.interpolated_prob
  simp only
  rw [code_p_uni_eq ts hne w3]
  have hbi : (lookupA w3 ((lookupA w2 (bigram_probs_of ts)).getD [])).getD
      (P_uni_claim ts w3) = P_bi_code ts w2 w3 := by
    unfold bigram_probs_of
    rw [lookupA_outer_table]
    by_cases hctx : w2 ∈ (bigramsOf ts).map Prod.fst
    · rw [if_pos hctx, Option.getD_some, lookupA_context_table]
      by_cases hmem : (w2, w3) ∈ bigramsOf ts
      · simp [hmem, P_bi_code]
      · simp [hmem, P_bi_code]
    · have hmem : (w2, w3) ∉ bigramsOf ts := by
        intro hmem
        exact hctx (List.mem_map.mpr ⟨(w2, w3), hmem, rfl⟩)
      simp [hctx, hmem, P_bi_code, lookupA]
  have htri : (lookupA w3 ((lookupA (w1, w2) (trigram_probs_of ts)).getD [])).getD 0 =
      P_tri_claim ts w1 w2 w3 := by
    unfold trigram_probs_of
    rw [lookupA_outer_table]
    by_cases hctx : (w1, w2) ∈ (trigramsOf ts).map Prod.fst
    · rw [if_pos hctx, Option.getD_some, lookupA_context_table]
      by_cases hmem : ((w1, w2), w3) ∈ trigramsOf ts
      · unfold P_tri_claim
        rw [if_pos hmem, if_pos hmem, Option.getD_some]
      · simp [hmem, P_tri_claim]
    · have hmem : ((w1, w2), w3) ∉ trigramsOf ts := by
        intro hmem
        exact hctx (List.mem_map.mpr ⟨((w1, w2), w3), hmem, rfl⟩)
      simp [hctx, hmem, P_tri_claim, lookupA]
  rw [hbi, htri]
  ring

/-- C1, amended: for every trained language model the interpolated
probability is `λ1·P_uni + λ2·P_bi' + λ3·P_tri`, where `P_uni` and `P_tri`
are as the claim states them but the bigram term `P_bi'` falls back to
`P_uni` (not to the MLE value 0) when the bigram `(w2,w3)` is unobserved. -/
theorem claim_C1_interpolation (l1 l2 l3 : ℚ) (ts : List Tok) (m : TrigramModel)
    (h : trainedOn l1 l2 l3 ts = .ok m) (w1 w2 w3 : Tok) :
    m.interpolated_prob w1 w2 w3 =
      l1 * P_uni_claim ts w3 + l2 * P_bi_code ts w2 w3 + l3 * P_tri_claim ts w1 w2 w3 :=
  interp_trained_eq l1 l2 l3 ts m h w1 w2 w3

/-- Witness for the amended C1 on the corpus `"a b c"`. -/
theorem claim_C1_witness :
    (⟨1/10, 3/10, 6/10, unigram_probs_of ["a", "b", "c"], bigram_probs_of ["a", "b", "c"],
        trigram_probs_of ["a", "b", "c"], 3, 3⟩ : TrigramModel).interpolated_prob "a" "b" "c" =
      (1/10) * P_uni_claim ["a", "b", "c"] "c" + (3/10) * P_bi_code ["a", "b", "c"] "b" "c" +
        (6/10) * P_tri_claim ["a", "b", "c"] "a" "b" "c" :=
  claim_C1_interpolation (1/10) (3/10) (6/10) ["a", "b", "c"] _
    (trainedOn_eq_ok _ _ _ _ (by norm_num) (by decide)) "a" "b" "c"

/-! ### The interpolation-weight invariant (claim C5) -/

/-- Counterexample to C5: the constructor's assert only checks the sum, so a
negative weight passes it, and `load` restores arbitrary persisted weights
with no validation at all — including `(0.2, 0.2, 0.2)`. -/
theorem claim_C5_counterexample :
    TrigramModel.init (-1/10) (1/2) (3/5) =
        .ok ⟨-1/10, 1/2, 3/5, [], [], [], 0, 0⟩ ∧
      ((-1 : ℚ)/10 < 0) ∧
      (TrigramModel.load ⟨1/5, 1/5, 1/5, [], [], [], 0, 0⟩).lambda1 +
          (TrigramModel.load ⟨1/5, 1/5, 1/5, [], [], [], 0, 0⟩).lambda2 +
          (TrigramModel.load ⟨1/5, 1/5, 1/5, [], [], [], 0, 0⟩).lambda3 = 3/5 ∧
      ¬(|(3 : ℚ)/5 - 1| < 1/1000000) := by
  have habs : |(3 : ℚ)/5 - 1| = 2/5 := by
    rw [abs_sub_comm, abs_of_nonneg (by norm_num : (0:ℚ) ≤ 1 - 3/5)]
    norm_num
  refine ⟨?_, by norm_num, by norm_num [TrigramModel.load], by rw [habs]; norm_num⟩
  unfold TrigramModel.init
  rw [if_pos (by norm_num)]

/-- C5, amended: construction succeeds exactly when the weights sum to 1
within `1e-6` — in particular constructing with `(0.2, 0.2, 0.2)` fails —
but non-negativity is not enforced at construction, and `load` restores the
persisted weights verbatim with no validation whatsoever. -/
theorem claim_C5_weight_invariant :
    (∀ l1 l2 l3 : ℚ,
        (TrigramModel.init l1 l2 l3).isOk = true ↔ |l1 + l2 + l3 - 1| < 1/1000000) ∧
      TrigramModel.init (1/5) (1/5) (1/5) =
        .error "Interpolation weights must sum to 1." ∧
      ∀ s : TrigramSaved, (TrigramModel.load s).lambda1 = s.lambda1 ∧
        (TrigramModel.load s).lambda2 = s.lambda2 ∧
        (TrigramModel.load s).lambda3 = s.lambda3 := by
  refine ⟨?_, ?_, fun s => ⟨rfl, rfl, rfl⟩⟩
  · intro l1 l2 l3
    unfold TrigramModel.init
    by_cases h : |l1 + l2 + l3 - 1| < 1/1000000
    · rw [if_pos h]
      exact iff_of_true rfl h
    · rw [if_neg h]
      exact iff_of_false (by simp [Except.isOk, Except.toBool]) h
  · unfold TrigramModel.init
    have habs : |(1 : ℚ)/5 + 1/5 + 1/5 - 1| = 2/5 := by
      rw [abs_sub_comm, abs_of_nonneg (by norm_num : (0:ℚ) ≤ 1 - (1/5 + 1/5 + 1/5))]
      norm_num
    rw [if_neg (by rw [habs]; norm_num)]

/-- Witness for the amended C5: the default weights construct successfully. -/
theorem claim_C5_witness : (TrigramModel.init (1/10) (3/10) (6/10)).isOk = true :=
  (claim_C5_weight_invariant.1 (1/10) (3/10) (6/10)).mpr (by norm_num)

/-! ### The renormalised candidate distribution (claim C3) -/

theorem mem_of_mem_bigrams {ts : List Tok} {a b : Tok}
    (h : (a, b) ∈ bigramsOf ts) : b ∈ ts := by
  unfold bigramsOf at h
  exact List.mem_of_mem_tail (List.of_mem_zip h).2

theorem mem_of_mem_trigrams {ts : List Tok} {ab : Tok × Tok} {c : Tok}
    (h : (ab, c) ∈ trigramsOf ts) : c ∈ ts := by
  unfold trigramsOf at h
  exact List.mem_of_mem_tail (List.mem_of_mem_tail (List.of_mem_zip h).2)

theorem map_fst_unigram (ts : List Tok) :
    (unigram_probs_of ts).map Prod.fst = ts.dedup := by
  unfold unigram_probs_of
  exact map_fst_map_pair _ _

theorem mem_ts_of_mem_context_keys {κ : Type} [DecidableEq κ]
    (ps : List (κ × Tok)) (ctx : κ) (w : Tok)
    (h : w ∈ (context_table ps ctx).map Prod.fst) : (ctx, w) ∈ ps := by
  unfold context_table at h
  rw [map_fst_map_pair] at h
  exact (mem_map_snd_filter_iff ps ctx w).mp (List.mem_dedup.mp h)

/-- Every interpolated score of a token of the corpus is strictly positive,
provided the weights are non-negative and `λ1 + λ2 > 0`. -/
theorem interp_pos_of_mem (l1 l2 l3 : ℚ) (ts : List Tok) (m : TrigramModel)
    (h : trainedOn l1 l2 l3 ts = .ok m)
    (h1 : 0 ≤ l1) (h2 : 0 ≤ l2) (h3 : 0 ≤ l3) (h12 : 0 < l1 + l2)
    (w1 w2 w3 : Tok) (hw3 : w3 ∈ ts) :
    0 < m.interpolated_prob w1 w2 w3 := by
  have hne : ts ≠ [] := fun hnil => by subst hnil; cases hw3
  have hlenpos : (0 : ℚ) < ts.length := by
    have : 0 < ts.length := List.length_pos.mpr hne
    exact_mod_cast this
  have huni : 0 < P_uni_claim ts w3 := by
    unfold P_uni_claim
    rw [if_pos hw3]
    have : (0 : ℚ) < countOcc w3 ts := by exact_mod_cast countOcc_pos_of_mem hw3
    exact div_pos this hlenpos
  have hbi : 0 < P_bi_code ts w2 w3 := by
    unfold P_bi_code
    by_cases hmem : (w2, w3) ∈ bigramsOf ts
    · rw [if_pos hmem]
      have hc : (0 : ℚ) < countOcc (w2, w3) (bigramsOf ts) := by
        exact_mod_cast countOcc_pos_of_mem hmem
      have hf : ((w2, w3) : Tok × Tok) ∈ (bigramsOf ts).filter fun p => p.1 = w2 :=
        List.mem_filter.mpr ⟨hmem, by simp⟩
      have hl : (0 : ℚ) < ((bigramsOf ts).filter fun p => p.1 = w2).length := by
        have : 0 < ((bigramsOf ts).filter fun p => p.1 = w2).length :=
          List.length_pos.mpr (fun hnil => by rw [hnil] at hf; cases hf)
        exact_mod_cast this
      exact div_pos hc hl
    · rw [if_neg hmem]; exact huni
  have htri : 0 ≤ P_tri_claim ts w1 w2 w3 := by
    unfold P_tri_claim
    by_cases hmem : ((w1, w2), w3) ∈ trigramsOf ts
    · rw [if_pos hmem]
      have hc : (0 : ℚ) ≤ countOcc ((w1, w2), w3) (trigramsOf ts) := by positivity
      have hl : (0 : ℚ) ≤ ((trigramsOf ts).filter fun p => p.1 = (w1, w2)).length := by
        positivity
      exact div_nonneg hc hl
    · rw [if_neg hmem]
  rw [interp_trained_eq l1 l2 l3 ts m h w1 w2 w3]
  have hmix : 0 < l1 * P_uni_claim ts w3 + l2 * P_bi_code ts w2 w3 := by
    rcases lt_or_eq_of_le h1 with h1' | h1'
    · have := mul_pos h1' huni
      have h2' : 0 ≤ l2 * P_bi_code ts w2 w3 := mul_nonneg h2 (le_of_lt hbi)
      linarith
    · have hl2 : 0 < l2 := by rw [← h1'] at h12; linarith
      have := mul_pos hl2 hbi
      rw [← h1']
      linarith
  have htri' : 0 ≤ l3 * P_tri_claim ts w1 w2 w3 := mul_nonneg h3 htri
  linarith

theorem map_snd_map_mk {A B C : Type} (l : List (A × B)) (f : A × B → C) :
    (l.map fun p => (p.1, f p)).map Prod.snd = l.map f := by
  induction l with
  | nil => rfl
  | cons a rest ih => simp [ih]

/-- C3, amended: for every model trained with non-negative weights whose
unigram and bigram weights are not both zero (in particular the default
weights), the renormalised candidate distribution sums to exactly 1 and all
its probabilities are non-negative.  (When `λ1 = λ2 = 0` every candidate of
an unseen context scores 0, the guard `total > 0` fails and the source
returns the unnormalised all-zero dict — see the counterexample.) -/
theorem claim_C3_distribution (l1 l2 l3 : ℚ) (ts : List Tok) (m : TrigramModel)
    (h : trainedOn l1 l2 l3 ts = .ok m)
    (h1 : 0 ≤ l1) (h2 : 0 ≤ l2) (h3 : 0 ≤ l3) (h12 : 0 < l1 + l2) (w1 w2 : Tok) :
    ((m.next_token_dist w1 w2).map Prod.snd).sum = 1 ∧
      ∀ p ∈ m.next_token_dist w1 w2, 0 ≤ p.2 := by
  have hm := (trainedOn_ok_elim h).2.2
  have hlen := (trainedOn_ok_elim h).2.1
  have hne : ts ≠ [] := by
    intro hnil; rw [hnil] at hlen; simp at hlen
  have hdne : ts.dedup ≠ [] := fun hnil => hne ((List.dedup_eq_nil ts).mp hnil)
  -- the candidate pool and its membership in the corpus
  have hsub : ∀ c ∈ (((lookupA (w1, w2) m.trigram_probs).getD []).map Prod.fst
      ++ ((lookupA w2 m.bigram_probs).getD []).map Prod.fst
      ++ m.unigram_probs.map Prod.fst).dedup, c ∈ ts := by
    intro c hc
    rw [List.mem_dedup] at hc
    rcases List.mem_append.mp hc with hc' | huni
    · rcases List.mem_append.mp hc' with htri | hbi
      · rw [hm] at htri
        show c ∈ ts
        rcases hlook : lookupA (w1, w2) (trigram_probs_of ts) with _ | tbl
        · rw [hlook] at htri; cases htri
        · rw [hlook] at htri
          unfold trigram_probs_of at hlook
          rw [lookupA_outer_table] at hlook
          by_cases hmem : (w1, w2) ∈ (trigramsOf ts).map Prod.fst
          · rw [if_pos hmem] at hlook
            have htbl : tbl = context_table (trigramsOf ts) (w1, w2) :=
              (Option.some.inj hlook).symm
            rw [htbl] at htri
            exact mem_of_mem_trigrams (mem_ts_of_mem_context_keys _ _ _ htri)
          · rw [if_neg hmem] at hlook; cases hlook
      · rw [hm] at hbi
        show c ∈ ts
        rcases hlook : lookupA w2 (bigram_probs_of ts) with _ | tbl
        · rw [hlook] at hbi; cases hbi
        · rw [hlook] at hbi
          unfold bigram_probs_of at hlook
          rw [lookupA_outer_table] at hlook
          by_cases hmem : w2 ∈ (bigramsOf ts).map Prod.fst
          · rw [if_pos hmem] at hlook
            have htbl : tbl = context_table (bigramsOf ts) w2 :=
              (Option.some.inj hlook).symm
            rw [htbl] at hbi
            exact mem_of_mem_bigrams (mem_ts_of_mem_context_keys _ _ _ hbi)
          · rw [if_neg hmem] at hlook; cases hlook
    · rw [hm] at huni
      rw [map_fst_unigram] at huni
      exact List.mem_dedup.mp huni
  have hcne : (((lookupA (w1, w2) m.trigram_probs).getD []).map Prod.fst
      ++ ((lookupA w2 m.bigram_probs).getD []).map Prod.fst
      ++ m.unigram_probs.map Prod.fst).dedup ≠ [] := by
    rcases List.exists_mem_of_ne_nil _ hdne with ⟨t, ht⟩
    have : t ∈ (((lookupA (w1, w2) m.trigram_probs).getD []).map Prod.fst
        ++ ((lookupA w2 m.bigram_probs).getD []).map Prod.fst
        ++ m.unigram_probs.map Prod.fst) := by
      apply List.mem_append.mpr
      right
      rw [hm, map_fst_unigram]
      exact ht
    exact List.ne_nil_of_mem (List.mem_dedup.mpr this)
  unfold TrigramModel.next_token_dist
  simp only
  set cands := (((lookupA (w1, w2) m.trigram_probs).getD []).map Prod.fst
      ++ ((lookupA w2 m.bigram_probs).getD []).map Prod.fst
      ++ m.unigram_probs.map Prod.fst).dedup with hcands
  set dist := cands.map fun w3 => (w3, m.interpolated_prob w1 w2 w3) with hdist
  have hpos_each : ∀ q ∈ dist.map Prod.snd, 0 < q := by
    intro q hq
    rcases List.mem_map.mp hq with ⟨p, hp, rfl⟩
    rcases List.mem_map.mp hp with ⟨w3, hw3, rfl⟩
    exact interp_pos_of_mem l1 l2 l3 ts m h h1 h2 h3 h12 w1 w2 w3 (hsub w3 hw3)
  have hdne' : dist.map Prod.snd ≠ [] := by
    intro hnil
    rcases List.exists_mem_of_ne_nil _ hcne with ⟨t, ht⟩
    have : (t, m.interpolated_prob w1 w2 t) ∈ dist :=
      List.mem_map.mpr ⟨t, ht, rfl⟩
    have : (m.interpolated_prob w1 w2 t) ∈ dist.map Prod.snd :=
      List.mem_map.mpr ⟨_, this, rfl⟩
    rw [hnil] at this
    cases this
  have htot : 0 < (dist.map Prod.snd).sum :=
    sum_pos_of_forall_pos _ hdne' hpos_each
  rw [if_pos htot]
  constructor
  · rw [map_snd_map_mk dist fun p => p.2 / (dist.map Prod.snd).sum]
    have := sum_map_div dist (fun p => p.2) ((dist.map Prod.snd).sum)
    rw [this]
    have hmapeq : dist.map (fun p => p.2) = dist.map Prod.snd := rfl
    rw [hmapeq]
    exact div_self (ne_of_gt htot)
  · intro p hp
    rcases List.mem_map.mp hp with ⟨q, hq, rfl⟩
    have hq2 : 0 < q.2 := hpos_each q.2 (List.mem_map.mpr ⟨q, hq, rfl⟩)
    exact div_nonneg (le_of_lt hq2) (le_of_lt htot)

/-- Counterexample to C3 as stated: the constructor accepts the weights
`(0, 0, 1)` (they sum to 1), and on the model trained from `"a b c"` the
candidate distribution for the unseen context `("c","c")` consists of
all-zero scores — the renormalisation guard `total > 0` fails, the dict is
returned unnormalised and its probabilities sum to 0, not to 1 ± 1e-6. -/
theorem claim_C3_counterexample :
    trainedOn 0 0 1 ["a", "b", "c"] =
      .ok ⟨0, 0, 1, unigram_probs_of ["a", "b", "c"], bigram_probs_of ["a", "b", "c"],
        trigram_probs_of ["a", "b", "c"], 3, 3⟩ ∧
    (((⟨0, 0, 1, unigram_probs_of ["a", "b", "c"], bigram_probs_of ["a", "b", "c"],
        trigram_probs_of ["a", "b", "c"], 3, 3⟩ : TrigramModel).next_token_dist "c" "c").map
          Prod.snd).sum = 0 ∧
    ¬(|(0 : ℚ) - 1| < 1/1000000) := by
  refine ⟨trainedOn_eq_ok _ _ _ _ (by norm_num) (by decide), ?_,
    by rw [zero_sub, abs_neg, abs_one]; norm_num⟩
  have hinterp : ∀ w3, (⟨0, 0, 1, unigram_probs_of ["a", "b", "c"],
      bigram_probs_of ["a", "b", "c"], trigram_probs_of ["a", "b", "c"], 3, 3⟩ :
        TrigramModel).interpolated_prob "c" "c" w3 = 0 := by
    intro w3
    unfold TrigramModel.interpolated_prob
    have htri : lookupA ("c", "c") (trigram_probs_of ["a", "b", "c"]) = none := by
      unfold trigram_probs_of
      rw [lookupA_outer_table, if_neg (by decide)]
    simp [htri, lookupA]
  have hsum0 : ∀ (l : List Tok), ((l.map fun w3 => (w3, (0:ℚ))).map Prod.snd).sum = 0 := by
    intro l; induction l with
    | nil => rfl
    | cons x xs ih => rw [List.map_cons, List.map_cons, List.sum_cons, ih]; simp
  unfold TrigramModel.next_token_dist
  simp only [hinterp]
  rw [if_neg (by rw [hsum0]; exact lt_irrefl 0), hsum0]

/-- Witness for the amended C3: the default weights on the corpus `"a b c"`
and the context `("a","b")`. -/
theorem claim_C3_witness :
    (((⟨1/10, 3/10, 6/10, unigram_probs_of ["a", "b", "c"], bigram_probs_of ["a", "b", "c"],
        trigram_probs_of ["a", "b", "c"], 3, 3⟩ : TrigramModel).next_token_dist "a" "b").map
          Prod.snd).sum = 1 ∧
      ∀ p ∈ (⟨1/10, 3/10, 6/10, unigram_probs_of ["a", "b", "c"],
        bigram_probs_of ["a", "b", "c"], trigram_probs_of ["a", "b", "c"], 3, 3⟩ :
          TrigramModel).next_token_dist "a" "b", 0 ≤ p.2 :=
  claim_C3_distribution (1/10) (3/10) (6/10) ["a", "b", "c"] _
    (trainedOn_eq_ok _ _ _ _ (by norm_num) (by decide))
    (by norm_num) (by norm_num) (by norm_num) (by norm_num) "a" "b"

/-! ### Generation termination shape (claim C4) -/

/-- On any model with a non-empty unigram table the candidate pool — and with
it the distribution dict — is never empty (it contains the whole unigram
vocabulary), so the `if not dist: break` branch is unreachable. -/
theorem next_token_dist_ne_nil (m : TrigramModel) (hm : m.unigram_probs ≠ [])
    (w1 w2 : Tok) : m.next_token_dist w1 w2 ≠ [] := by
  unfold TrigramModel.next_token_dist
  simp only
  intro hnil
  rcases List.exists_mem_of_ne_nil _ hm with ⟨p, hp⟩
  have ht : p.1 ∈ m.unigram_probs.map Prod.fst := List.mem_map.mpr ⟨p, hp, rfl⟩
  have hmem : p.1 ∈ (((lookupA (w1, w2) m.trigram_probs).getD []).map Prod.fst
      ++ ((lookupA w2 m.bigram_probs).getD []).map Prod.fst
      ++ m.unigram_probs.map Prod.fst).dedup :=
    List.mem_dedup.mpr (List.mem_append.mpr (Or.inr ht))
  have hcne := List.ne_nil_of_mem hmem
  split at hnil
  · exact hcne (List.map_eq_nil_iff.mp (List.map_eq_nil_iff.mp hnil))
  · exact hcne (List.map_eq_nil_iff.mp hnil)

/-- Loop invariant of the sampling loop: a successful run extends its input
tokens and either drew `<EOT>` as the final token or performed exactly as
many draws as it had fuel. -/
theorem generateLoop_shape (m : TrigramModel)
    (hdist : ∀ w1 w2, m.next_token_dist w1 w2 ≠ [])
    (applyTemp : Bool) (tempMap : ℚ → ℚ) (topK : Option ℕ) (pick : ℕ → ℕ) :
    ∀ (n step : ℕ) (tokens out : List Tok),
      generateLoop m applyTemp tempMap topK pick n step tokens = .ok out →
      (tokens <+: out) ∧
        (out.getLast? = some EOT_TOKEN ∨ out.length = tokens.length + n) := by
  intro n
  induction n with
  | zero =>
    intro step tokens out h
    simp only [generateLoop] at h
    have : tokens = out := Except.ok.inj h
    subst this
    exact ⟨List.prefix_refl tokens, Or.inr rfl⟩
  | succ n ih =>
    intro step tokens out h
    simp only [generateLoop] at h
    rw [if_neg (hdist _ _)] at h
    split at h
    · cases h
    · rename_i dist1 heq1
      split at h
      · cases h
      · rename_i dist2 heq2
        split at h
        · cases h
        · split at h
          · rename_i heot
            have hout : tokens ++
                [(dist2.getD (pick step % dist2.length) ("", 0)).1] = out :=
              Except.ok.inj h
            refine ⟨?_, Or.inl ?_⟩
            · rw [← hout]; exact List.prefix_append tokens _
            · rw [← hout, List.getLast?_concat, heot]
          · rcases ih (step + 1)
                (tokens ++ [(dist2.getD (pick step % dist2.length) ("", 0)).1]) out h with
              ⟨hpre, hdisj⟩
            refine ⟨(List.prefix_append tokens _).trans hpre, ?_⟩
            rcases hdisj with h' | h'
            · exact Or.inl h'
            · right
              rw [h', List.length_append]
              simp only [List.length_singleton]
              omega

/-- C4: for every trained language model, every seed of at least 2 tokens and
every `max_length` `n`, a successful `generate` returns the seed extended by
drawn tokens, and the result either ends with the `<EOT>` control token or
has exactly `len(seed) + n` tokens — generation stops at `<EOT>` or after `n`
draws, whichever comes first.  Quantifying over all sampling oracles `pick`,
all temperature maps and all `top_k` values covers every stochastic outcome. -/
theorem claim_C4_generate_shape (m₀ : TrigramModel) (ts : List Tok) (m : TrigramModel)
    (h : m₀.trainT ts = .ok m) (seed : List Tok) (n : ℕ)
    (applyTemp : Bool) (tempMap : ℚ → ℚ) (topK : Option ℕ) (pick : ℕ → ℕ)
    (hseed : 2 ≤ seed.length) (out : List Tok)
    (hgen : m.generate seed n applyTemp tempMap topK pick = .ok out) :
    (seed <+: out) ∧ (out.getLast? = some EOT_TOKEN ∨ out.length = seed.length + n) := by
  have hm := (trainT_ok_elim h).2
  have hlen := (trainT_ok_elim h).1
  have hune : m.unigram_probs ≠ [] := by
    rw [hm]
    show unigram_probs_of ts ≠ []
    unfold unigram_probs_of
    intro hnil
    have h1 : ts.dedup = [] := List.map_eq_nil_iff.mp hnil
    have h2 : ts = [] := (List.dedup_eq_nil ts).mp h1
    rw [h2] at hlen
    simp at hlen
  unfold TrigramModel.generate at hgen
  rw [if_neg (by omega : ¬seed.length < 2), if_neg hune] at hgen
  exact generateLoop_shape m (next_token_dist_ne_nil m hune)
    applyTemp tempMap topK pick n 0 seed out hgen

/-- Witness for C4 with `max_length = 0`: generation returns the seed. -/
theorem claim_C4_witness :
    ((["a", "b"] : List Tok) <+: ["a", "b"]) ∧
      ((["a", "b"] : List Tok).getLast? = some EOT_TOKEN ∨
        (["a", "b"] : List Tok).length = (["a", "b"] : List Tok).length + 0) :=
  claim_C4_generate_shape ⟨1/10, 3/10, 6/10, [], [], [], 0, 0⟩ ["a", "b", "c"] _ rfl
    ["a", "b"] 0 false id none (fun _ => 0) (by decide) ["a", "b"] rfl

/-! ## BPE tokenizer (`bpe_tokenizer.py`)

Texts are `List Char`; a BPE symbol is a `List Char` (symbols never contain
spaces, so a weighted vocabulary entry — the source's space-joined string key —
is modelled one-to-one as a list of symbols).  The regex substitution of
`merge_vocab` (`(?<!\S)p₁ p₂(?!\S)` on the space-joined form) is exactly the
left-to-right non-overlapping merge of adjacent symbols at the list level. -/

/-- A BPE symbol: a string of characters. -/
abbrev Sym := List Char

/-- `BPETokenizer.END_OF_WORD` (source line 74). -/
def END_OF_WORD : Sym := "</w>".toList

/-- The reserved control tokens `{<EOS>, <EOP>, <EOT>}` (source lines 90 and
199).  Python iterates this set in an implementation-defined order; the
enumeration order only influences which numbered placeholder stands for which
token during training, never the trained state, and is fixed here to the
source's literal order. -/
def special_tokens : List Sym := ["<EOS>".toList, "<EOP>".toList, "<EOT>".toList]

/-- `f"SPECIAL{i}PLACEHOLDER"` (source line 96). -/
def placeholder (i : ℕ) : Sym := ("SPECIAL" ++ toString i ++ "PLACEHOLDER").toList

/-- `placeholder_map` (source lines 93–98), keyed by the placeholder text. -/
def placeholder_map : List (Sym × Sym) :=
  [(placeholder 0, "<EOS>".toList), (placeholder 1, "<EOP>".toList),
   (placeholder 2, "<EOT>".toList)]

/-- Python `str.split()`: split on whitespace runs, dropping empty words
(accumulator is the current word, reversed). -/
def pysplitAux : List Char → List Char → List (List Char)
  | [], cur => if cur.isEmpty then [] else [cur.reverse]
  | c :: rest, cur =>
    if c.isWhitespace then
      if cur.isEmpty then pysplitAux rest [] else cur.reverse :: pysplitAux rest []
    else pysplitAux rest (c :: cur)

/-- Python `str.split()` on a character list. -/
def pysplit (s : List Char) : List (List Char) := pysplitAux s []

/-- Python `str.replace(pat, repl)`: replace every non-overlapping occurrence,
scanning left to right.  The explicit fuel (consumed once per step, always at
least the number of remaining characters) keeps the recursion structural. -/
def replaceAllGo (pat repl : List Char) : ℕ → List Char → List Char
  | _, [] => []
  | 0, s => s
  | fuel + 1, c :: rest =>
    if pat ≠ [] ∧ pat <+: (c :: rest) then
      repl ++ replaceAllGo pat repl fuel ((c :: rest).drop pat.length)
    else c :: replaceAllGo pat repl fuel rest

/-- Python `str.replace(pat, repl)`. -/
def replaceAll (pat repl s : List Char) : List Char :=
  replaceAllGo pat repl s.length s

/-- `re.split(r"(<EOS>|<EOP>|<EOT>)", text)` (source line 201): split the text
at every occurrence of a control token, keeping the control tokens themselves
as parts (the three literals can never match at the same position, so the
scan order is immaterial).  Fuel as in `replaceAllGo`. -/
def splitSpecialsGo : ℕ → List Char → List Char → List (List Char)
  | _, [], cur => [cur.reverse]
  | 0, s, cur => [cur.reverse ++ s]
  | fuel + 1, c :: rest, cur =>
    if "<EOS>".toList <+: (c :: rest) then
      cur.reverse :: "<EOS>".toList :: splitSpecialsGo fuel ((c :: rest).drop 5) []
    else if "<EOP>".toList <+: (c :: rest) then
      cur.reverse :: "<EOP>".toList :: splitSpecialsGo fuel ((c :: rest).drop 5) []
    else if "<EOT>".toList <+: (c :: rest) then
      cur.reverse :: "<EOT>".toList :: splitSpecialsGo fuel ((c :: rest).drop 5) []
    else splitSpecialsGo fuel rest (c :: cur)

/-- `re.split` keeping the control-token delimiters. -/
def splitSpecials (s : List Char) : List (List Char) :=
  splitSpecialsGo s.length s []

/-- The adjacent symbol pairs of one vocabulary entry (inner loop of
`get_stats`, source lines 13–16). -/
def entryPairs : List Sym → List (Sym × Sym)
  | a :: b :: rest => (a, b) :: entryPairs (b :: rest)
  | _ => []

/-- `get_stats` (source lines 10–17): adjacent-pair frequencies over the
weighted vocabulary, accumulated in first-occurrence order like the source's
`defaultdict(int)`. -/
def get_stats (vocab : List (List Sym × ℕ)) : List ((Sym × Sym) × ℕ) :=
  vocab.foldl (fun acc e => (entryPairs e.1).foldl (fun a pr => incrA pr e.2 a) acc) []

/-- One replacement pass of `merge_vocab`'s regex over one entry: replace
every non-overlapping adjacent occurrence of `(p1, p2)` by `merged`, left to
right (also the loop body of `_tokenize_word`, source lines 172–186). -/
def mergePass (p1 p2 merged : Sym) : List Sym → List Sym
  | a :: b :: rest =>
    if a = p1 ∧ b = p2 then merged :: mergePass p1 p2 merged rest
    else a :: mergePass p1 p2 merged (b :: rest)
  | l => l

/-- `merge_vocab` (source lines 20–28): rewrite every entry, entering results
into a fresh dict (`vocab_out[...] = freq`, last write wins). -/
def merge_vocab (pr : Sym × Sym) (vocabIn : List (List Sym × ℕ)) :
    List (List Sym × ℕ) :=
  vocabIn.foldl (fun acc e => setA (mergePass pr.1 pr.2 (pr.1 ++ pr.2) e.1) e.2 acc) []

/-- `set.add`: append if absent (the set is only ever used through membership,
size and a final sort, so list order is immaterial; keeping first-insertion
order also keeps the list duplicate-free). -/
def addUnique (x : Sym) (l : List Sym) : List Sym := if x ∈ l then l else l ++ [x]

/-- The initial symbol inventory (source lines 118–121): every distinct symbol
appearing in any entry. -/
def initial_tokens (vocab : List (List Sym × ℕ)) : List Sym :=
  vocab.foldl (fun acc e => e.1.foldl (fun a s => addUnique s a) acc) []

/-- The iterative merge loop (source lines 131–153), running at most
`num_merges` iterations and stopping early when no mergeable pair remains.
Returns the final weighted vocabulary, unique-token set and merge rules. -/
def bpeLoop : ℕ → List (List Sym × ℕ) → List Sym → List ((Sym × Sym) × Sym) →
    List (List Sym × ℕ) × List Sym × List ((Sym × Sym) × Sym)
  | 0, vocab, uniq, merges => (vocab, uniq, merges)
  | n + 1, vocab, uniq, merges =>
    let pairs := get_stats vocab
    if pairs = [] then (vocab, uniq, merges)
    else
      let pairs2 := pairs.filter fun pr =>
        pr.1.1 ∉ special_tokens ∧ pr.1.2 ∉ special_tokens
      if pairs2 = [] then (vocab, uniq, merges)
      else
        match maxA pairs2 with
        | none => (vocab, uniq, merges)
        | some (best, _) =>
          bpeLoop n (merge_vocab best vocab) (addUnique (best.1 ++ best.2) uniq)
            (merges ++ [(best, best.1 ++ best.2)])

/-- `token2id` keys in order with consecutive ids (`enumerate`, line 162). -/
def enumIds : ℕ → List Sym → List (Sym × ℕ)
  | _, [] => []
  | n, t :: ts => (t, n) :: enumIds (n + 1) ts

/-- `sorted(vocab)`: Python sorts strings by code points, which is the
lexicographic order on their character lists. -/
def lexSort (l : List Sym) : List Sym := List.insertionSort (· ≤ ·) l

/-- State of `BPETokenizer` (source lines 62–80). -/
structure BPETokenizer where
  vocab : List Sym
  merges : List ((Sym × Sym) × Sym)
  token2id : List (Sym × ℕ)
  id2token : List (ℕ × Sym)
deriving DecidableEq

/-- `BPETokenizer.__init__`: the untrained state. -/
def BPETokenizer.empty : BPETokenizer := ⟨[], [], [], []⟩

/-- `BPETokenizer._build_index` (source lines 161–163). -/
def build_index (vocab : List Sym) : List (Sym × ℕ) × List (ℕ × Sym) :=
  let t2i := enumIds 0 (lexSort vocab)
  (t2i, t2i.map fun p => (p.2, p.1))

/-- Step 1 of `train` (source lines 93–98): every occurrence of a control
token is replaced by its space-padded placeholder so whitespace splitting
cannot fragment it.  (The three control tokens never overlap each other and
the replacement text can never create a new occurrence, so the set-iteration
order of the source is immaterial; the fold uses the canonical order.) -/
def safe_corpus (corpus : List Char) : List Char :=
  placeholder_map.foldl (fun s pr => replaceAll pr.2 (' ' :: pr.1 ++ [' ']) s) corpus

/-- Step 2 of `train` (source lines 100–115): the weighted symbol-sequence
vocabulary.  A placeholder word stands for its control token as a single
atomic symbol, every other word becomes its characters plus the end-of-word
marker.  The source's raw dict and its placeholder-to-label translation are
collapsed into one pass, which preserves both insertion order and
frequencies. -/
def initial_vocab (corpus : List Char) : List (List Sym × ℕ) :=
  (pysplit (safe_corpus corpus)).foldl
    (fun acc w =>
      match lookupA w placeholder_map with
      | some tok => incrA [tok] 1 acc
      | none => incrA (w.map (fun c => [c]) ++ [END_OF_WORD]) 1 acc) []

/-- Step 3 of `train` (source lines 118–123): the initial symbol inventory. -/
def initial_inventory (corpus : List Char) : List Sym :=
  initial_tokens (initial_vocab corpus)

/-- `BPETokenizer.train` (source lines 84–157).  `num_merges` is
`max(0, target_vocab_size - len(unique_tokens))`, which is exactly ℕ
subtraction. -/
def BPETokenizer.train (corpus : List Char) (target_vocab_size : ℕ) : BPETokenizer :=
  let vocab0 := initial_vocab corpus
  let uniq := initial_inventory corpus
  let num_merges := target_vocab_size - uniq.length
  let res := bpeLoop num_merges vocab0 uniq []
  let vocabF := special_tokens.foldl (fun a s => addUnique s a) res.2.1
  let idx := build_index vocabF
  ⟨vocabF, res.2.2, idx.1, idx.2⟩

/-- `BPETokenizer._tokenize_word` (source lines 167–188): start from the
character sequence plus the end-of-word marker and replay every merge rule in
training order. -/
def tokenize_word (merges : List ((Sym × Sym) × Sym)) (w : List Char) : List Sym :=
  merges.foldl (fun syms r => mergePass r.1.1 r.1.2 r.2 syms)
    (w.map (fun c => [c]) ++ [END_OF_WORD])

/-- `BPETokenizer.encode` (source lines 190–214): split on control tokens
(kept as single units), tokenize each remaining word, and map symbols to ids
with fallback id 0 for unknown symbols. -/
def BPETokenizer.encode (t : BPETokenizer) (text : List Char) :
    Except String (List ℕ) :=
  if t.token2id = [] then .error "Tokenizer not trained yet."
  else .ok ((splitSpecials text).flatMap fun part =>
    if part = [] then []
    else if part ∈ special_tokens then [(lookupA part t.token2id).getD 0]
    else (pysplit part).flatMap fun w =>
      (tokenize_word t.merges w).map fun s => (lookupA s t.token2id).getD 0)

/-- `" ".join` of symbol strings. -/
def joinSpace : List (List Char) → List Char
  | [] => []
  | [w] => w
  | w :: ws => w ++ ' ' :: joinSpace ws

/-- Python `str.strip()`. -/
def pystrip (s : List Char) : List Char :=
  ((s.dropWhile Char.isWhitespace).reverse.dropWhile Char.isWhitespace).reverse

/-- `BPETokenizer.decode` (source lines 216–225): map ids back to symbols
(unknown ids become the empty string), join with spaces, remove the
end-of-word markers (first the space-separated ones, then the attached ones)
and strip. -/
def BPETokenizer.decode (t : BPETokenizer) (ids : List ℕ) :
    Except String (List Char) :=
  if t.id2token = [] then .error "Tokenizer not trained yet."
  else
    let toks := ids.map fun i => (lookupA i t.id2token).getD []
    .ok (pystrip (replaceAll END_OF_WORD []
      (replaceAll (' ' :: END_OF_WORD) [] (joinSpace toks))))

/-- One `decode(encode(·))` round trip. -/
def roundTrip (t : BPETokenizer) (text : List Char) : Except String (List Char) :=
  t.encode text >>= t.decode

/-! ### Merge budget (claim C9) -/

theorem bpeLoop_merges_length (n : ℕ) :
    ∀ (vocab : List (List Sym × ℕ)) (uniq : List Sym)
      (merges : List ((Sym × Sym) × Sym)),
      ((bpeLoop n vocab uniq merges).2.2).length ≤ merges.length + n := by
  induction n with
  | zero => intro vocab uniq merges; simp [bpeLoop]
  | succ n ih =>
    intro vocab uniq merges
    simp only [bpeLoop]
    split
    · simp
    · split
      · simp
      · split
        · simp
        · rename_i best w heq
          calc ((bpeLoop n (merge_vocab best vocab) (addUnique (best.1 ++ best.2) uniq)
                  (merges ++ [(best, best.1 ++ best.2)])).2.2).length
              ≤ (merges ++ [(best, best.1 ++ best.2)]).length + n := ih _ _ _
            _ = merges.length + (n + 1) := by
                rw [List.length_append, List.length_singleton]; omega

/-- C9: codec training performs at most
`max(0, target_vocab_size − |initial inventory|)` merge iterations (ℕ
subtraction below is exactly that `max`), and when `target_vocab_size` is
smaller than the initial inventory exactly zero merges are performed while
training still succeeds (`train` is a total function — the source has no
failure path). -/
theorem claim_C9_merge_budget (corpus : List Char) (target_vocab_size : ℕ) :
    (BPETokenizer.train corpus target_vocab_size).merges.length ≤
        target_vocab_size - (initial_inventory corpus).length ∧
      (target_vocab_size < (initial_inventory corpus).length →
        (BPETokenizer.train corpus target_vocab_size).merges = []) := by
  constructor
  · show ((bpeLoop (target_vocab_size - (initial_inventory corpus).length)
        (initial_vocab corpus) (initial_inventory corpus) []).2.2).length ≤ _
    have := bpeLoop_merges_length (target_vocab_size - (initial_inventory corpus).length)
      (initial_vocab corpus) (initial_inventory corpus) []
    simpa using this
  · intro hlt
    show (bpeLoop (target_vocab_size - (initial_inventory corpus).length)
        (initial_vocab corpus) (initial_inventory corpus) []).2.2 = []
    rw [Nat.sub_eq_zero_of_le (Nat.le_of_lt hlt)]
    rfl

/-- Witness for C9: a 3-symbol inventory with `target_vocab_size = 0`. -/
theorem claim_C9_witness : (BPETokenizer.train "ab".toList 0).merges = [] :=
  (claim_C9_merge_budget "ab".toList 0).2 (by decide)

/-! ### Not-trained behaviour (claim C2) -/

/-- C2, amended: on a freshly constructed (never trained, never loaded)
model, `generate` (for any seed of at least 2 tokens — the seed-length check
precedes the trained check) and the codec's `encode` and `decode` abort with
their descriptive not-trained errors; but the probability query computes
`λ2 + λ1` from the uniform fallbacks instead of aborting, and `perplexity`
returns a result (its per-window probabilities) rather than failing — the
source never checks training in either. -/
theorem claim_C2_not_trained (l1 l2 l3 : ℚ) (m : TrigramModel)
    (h : TrigramModel.init l1 l2 l3 = .ok m) :
    (∀ (seed : List Tok) (n : ℕ) (applyTemp : Bool) (tempMap : ℚ → ℚ)
        (topK : Option ℕ) (pick : ℕ → ℕ), 2 ≤ seed.length →
        m.generate seed n applyTemp tempMap topK pick = .error "Model not trained yet.") ∧
      (∀ text, BPETokenizer.empty.encode text = .error "Tokenizer not trained yet.") ∧
      (∀ ids, BPETokenizer.empty.decode ids = .error "Tokenizer not trained yet.") ∧
      (∀ w1 w2 w3, m.interpolated_prob w1 w2 w3 = l2 + l1) ∧
      (∀ ts : List Tok, 3 ≤ ts.length → ∃ ps, m.perplexityProbs ts = .ok ps) := by
  have hm := (init_ok_elim h).2
  subst hm
  refine ⟨?_, fun text => rfl, fun ids => rfl, ?_, ?_⟩
  · intro seed n applyTemp tempMap topK pick hseed
    unfold TrigramModel.generate
    rw [if_neg (by omega : ¬seed.length < 2), if_pos rfl]
  · intro w1 w2 w3
    unfold TrigramModel.interpolated_prob
    simp [lookupA]
  · intro ts hts
    unfold TrigramModel.perplexityProbs
    rw [if_neg (by omega : ¬ts.length < 3)]
    exact ⟨_, rfl⟩

/-- Counterexample to C2 as stated: `perplexity` on an untrained model does
not abort — it happily returns its per-window probabilities. -/
theorem claim_C2_counterexample :
    TrigramModel.init (1/10) (3/10) (6/10) = .ok ⟨1/10, 3/10, 6/10, [], [], [], 0, 0⟩ ∧
      ((⟨1/10, 3/10, 6/10, [], [], [], 0, 0⟩ : TrigramModel).perplexityProbs
        ["a", "b", "c"]).isOk = true := by
  constructor
  · unfold TrigramModel.init
    rw [if_pos (by norm_num)]
  · rfl

/-- Witness for the amended C2. -/
theorem claim_C2_witness :
    BPETokenizer.empty.encode "ab".toList = .error "Tokenizer not trained yet." ∧
      (⟨1/10, 3/10, 6/10, [], [], [], 0, 0⟩ : TrigramModel).generate ["a", "b"] 5
        false id none (fun _ => 0) = .error "Model not trained yet." := by
  have h : TrigramModel.init (1/10) (3/10) (6/10) =
      .ok ⟨1/10, 3/10, 6/10, [], [], [], 0, 0⟩ := by
    unfold TrigramModel.init
    rw [if_pos (by norm_num)]
  exact ⟨(claim_C2_not_trained (1/10) (3/10) (6/10) _ h).2.1 "ab".toList,
    (claim_C2_not_trained (1/10) (3/10) (6/10) _ h).1 ["a", "b"] 5 false id none
      (fun _ => 0) (by decide)⟩

/-! ### Control-token atomicity (claim C6) -/

theorem mem_addUnique_left {x y : Sym} {l : List Sym} (h : x ∈ l) :
    x ∈ addUnique y l := by
  unfold addUnique
  split
  · exact h
  · exact List.mem_append.mpr (Or.inl h)

theorem mem_addUnique_self (y : Sym) (l : List Sym) : y ∈ addUnique y l := by
  unfold addUnique
  split
  · assumption
  · exact List.mem_append.mpr (Or.inr (List.mem_singleton.mpr rfl))

theorem mem_foldl_addUnique (l : List Sym) :
    ∀ (acc : List Sym) (x : Sym), x ∈ acc ∨ x ∈ l →
      x ∈ l.foldl (fun a s => addUnique s a) acc := by
  induction l with
  | nil =>
    intro acc x h
    rcases h with h | h
    · exact h
    · cases h
  | cons s l' ih =>
    intro acc x h
    rw [List.foldl_cons]
    rcases h with h | h
    · exact ih _ x (Or.inl (mem_addUnique_left h))
    · rcases List.mem_cons.mp h with h' | h'
      · exact ih _ x (Or.inl (h' ▸ mem_addUnique_self s acc))
      · exact ih _ x (Or.inr h')

theorem maxA_mem {κ : Type} [DecidableEq κ] :
    ∀ (l : List (κ × ℕ)) (p : κ × ℕ), maxA l = some p → p ∈ l := by
  intro l
  induction l with
  | nil => intro p h; cases h
  | cons e rest ih =>
    intro p h
    obtain ⟨k, v⟩ := e
    unfold maxA at h
    rcases hm : maxA rest with _ | q
    · rw [hm] at h
      exact List.mem_cons.mpr (Or.inl (Option.some.inj h).symm)
    · obtain ⟨k', v'⟩ := q
      rw [hm] at h
      have h' : (if v' > v then some (k', v') else some (k, v)) = some p := h
      by_cases hv : v' > v
      · rw [if_pos hv] at h'
        have hp : (k', v') = p := Option.some.inj h'
        exact List.mem_cons.mpr (Or.inr (hp ▸ ih _ hm))
      · rw [if_neg hv] at h'
        exact List.mem_cons.mpr (Or.inl (Option.some.inj h').symm)

/-- Every learned merge rule avoids the control tokens and its merged symbol
is the concatenation of its pair (`merged = "".join(pair)`, line 147). -/
def goodRule (r : (Sym × Sym) × Sym) : Prop :=
  (r.1.1 ∉ special_tokens ∧ r.1.2 ∉ special_tokens) ∧ r.2 = r.1.1 ++ r.1.2

theorem bpeLoop_rules (n : ℕ) :
    ∀ (vocab : List (List Sym × ℕ)) (uniq : List Sym)
      (merges : List ((Sym × Sym) × Sym)),
      (∀ r ∈ merges, goodRule r ∧ r.2 ∈ uniq) →
      ∀ r ∈ (bpeLoop n vocab uniq merges).2.2,
        goodRule r ∧ r.2 ∈ (bpeLoop n vocab uniq merges).2.1 := by
  induction n with
  | zero => intro vocab uniq merges hinv; exact hinv
  | succ n ih =>
    intro vocab uniq merges hinv
    simp only [bpeLoop]
    split
    · exact hinv
    · split
      · exact hinv
      · split
        · exact hinv
        · rename_i best w heq
          apply ih
          intro r hr
          rcases List.mem_append.mp hr with hold | hnew
          · rcases hinv r hold with ⟨hg, hu⟩
            exact ⟨hg, mem_addUnique_left hu⟩
          · have hbest : (best, w) ∈ (get_stats vocab).filter fun pr =>
                pr.1.1 ∉ special_tokens ∧ pr.1.2 ∉ special_tokens :=
              maxA_mem _ _ heq
            have hpure := (List.mem_filter.mp hbest).2
            simp only [decide_eq_true_eq] at hpure
            have hr' : r = (best, best.1 ++ best.2) := List.mem_singleton.mp hnew
            subst hr'
            exact ⟨⟨hpure, rfl⟩, mem_addUnique_self _ _⟩

/-- `train` written out: the record the let-chain of the source builds. -/
theorem train_eq (corpus : List Char) (tvs : ℕ) :
    BPETokenizer.train corpus tvs =
      ⟨special_tokens.foldl (fun a s => addUnique s a)
          (bpeLoop (tvs - (initial_inventory corpus).length) (initial_vocab corpus)
            (initial_inventory corpus) []).2.1,
        (bpeLoop (tvs - (initial_inventory corpus).length) (initial_vocab corpus)
            (initial_inventory corpus) []).2.2,
        (build_index (special_tokens.foldl (fun a s => addUnique s a)
          (bpeLoop (tvs - (initial_inventory corpus).length) (initial_vocab corpus)
            (initial_inventory corpus) []).2.1)).1,
        (build_index (special_tokens.foldl (fun a s => addUnique s a)
          (bpeLoop (tvs - (initial_inventory corpus).length) (initial_vocab corpus)
            (initial_inventory corpus) []).2.1)).2⟩ := rfl

theorem train_vocab_eq (corpus : List Char) (tvs : ℕ) :
    (BPETokenizer.train corpus tvs).vocab =
      special_tokens.foldl (fun a s => addUnique s a)
        ((bpeLoop (tvs - (initial_inventory corpus).length) (initial_vocab corpus)
          (initial_inventory corpus) []).2.1) := by
  rw [train_eq]

theorem train_merges_eq (corpus : List Char) (tvs : ℕ) :
    (BPETokenizer.train corpus tvs).merges =
      (bpeLoop (tvs - (initial_inventory corpus).length) (initial_vocab corpus)
        (initial_inventory corpus) []).2.2 := by
  rw [train_eq]

theorem build_index_fst (V : List Sym) : (build_index V).1 = enumIds 0 (lexSort V) := rfl

theorem train_token2id_eq (corpus : List Char) (tvs : ℕ) :
    (BPETokenizer.train corpus tvs).token2id =
      enumIds 0 (lexSort (special_tokens.foldl (fun a s => addUnique s a)
        ((bpeLoop (tvs - (initial_inventory corpus).length) (initial_vocab corpus)
          (initial_inventory corpus) []).2.1))) := by
  rw [train_eq]
  simp only []
  rw [build_index_fst]

theorem train_merges_good (corpus : List Char) (tvs : ℕ) :
    ∀ r ∈ (BPETokenizer.train corpus tvs).merges,
      goodRule r ∧ r.2 ∈ (BPETokenizer.train corpus tvs).vocab := by
  intro r hr
  rw [train_merges_eq] at hr
  rw [train_vocab_eq]
  have h := bpeLoop_rules (tvs - (initial_inventory corpus).length)
    (initial_vocab corpus) (initial_inventory corpus) []
    (by intro r hr; cases hr) r hr
  exact ⟨h.1, mem_foldl_addUnique special_tokens _ _ (Or.inl h.2)⟩

theorem specials_mem_train (corpus : List Char) (tvs : ℕ) :
    ∀ s ∈ special_tokens, s ∈ (BPETokenizer.train corpus tvs).vocab := by
  intro s hs
  rw [train_vocab_eq]
  exact mem_foldl_addUnique special_tokens _ s (Or.inr hs)

theorem lookupA_enumIds_of_mem :
    ∀ (l : List Sym) (k : ℕ) (x : Sym), x ∈ l →
      ∃ i, lookupA x (enumIds k l) = some i := by
  intro l
  induction l with
  | nil => intro k x h; cases h
  | cons t ts ih =>
    intro k x h
    by_cases hx : x = t
    · exact ⟨k, by unfold enumIds lookupA; rw [if_pos hx]⟩
    · rcases List.mem_cons.mp h with h' | h'
      · exact absurd h' hx
      · rcases ih (k + 1) x h' with ⟨i, hi⟩
        exact ⟨i, by unfold enumIds lookupA; rw [if_neg hx]; exact hi⟩

theorem train_token2id_some (corpus : List Char) (tvs : ℕ) {s : Sym}
    (hs : s ∈ (BPETokenizer.train corpus tvs).vocab) :
    ∃ i, lookupA s (BPETokenizer.train corpus tvs).token2id = some i := by
  rw [train_vocab_eq] at hs
  rcases lookupA_enumIds_of_mem
    (lexSort (special_tokens.foldl (fun a s => addUnique s a)
      ((bpeLoop (tvs - (initial_inventory corpus).length) (initial_vocab corpus)
        (initial_inventory corpus) []).2.1))) 0 s
    (((List.perm_insertionSort _ _).mem_iff).mpr hs) with ⟨i, hi⟩
  exact ⟨i, by rw [train_token2id_eq]; exact hi⟩

/-- The two-word Urdu test corpus of the specification. -/
def atomicity_corpus : List Char := "<EOS> ایک دن <EOT>".toList

/-- C6: control tokens are atomic.  In general: after training on any corpus
with any `target_vocab_size`, the control tokens are in the vocabulary and no
merge rule mentions a control token on either side (so they are never merged
across).  On the specification's test corpus, for every `target_vocab_size`,
encoding yields exactly one id per control-token occurrence — the id
`token_to_id` maps that token to — with the word ids strictly between them,
never a split into character ids. -/
theorem claim_C6_control_atomicity :
    (∀ (corpus : List Char) (tvs : ℕ),
        (∀ s ∈ special_tokens, s ∈ (BPETokenizer.train corpus tvs).vocab) ∧
        (∀ r ∈ (BPETokenizer.train corpus tvs).merges,
          r.1.1 ∉ special_tokens ∧ r.1.2 ∉ special_tokens)) ∧
      (∀ tvs : ℕ, ∃ (i j : ℕ) (mid : List ℕ),
        lookupA "<EOS>".toList (BPETokenizer.train atomicity_corpus tvs).token2id =
            some i ∧
          lookupA "<EOT>".toList (BPETokenizer.train atomicity_corpus tvs).token2id =
            some j ∧
          (BPETokenizer.train atomicity_corpus tvs).encode atomicity_corpus =
            .ok (i :: mid ++ [j])) := by
  constructor
  · intro corpus tvs
    exact ⟨specials_mem_train corpus tvs,
      fun r hr => (train_merges_good corpus tvs r hr).1.1⟩
  · intro tvs
    have heos : "<EOS>".toList ∈ (BPETokenizer.train atomicity_corpus tvs).vocab :=
      specials_mem_train _ _ _ (by decide)
    have heot : "<EOT>".toList ∈ (BPETokenizer.train atomicity_corpus tvs).vocab :=
      specials_mem_train _ _ _ (by decide)
    rcases train_token2id_some _ _ heos with ⟨i, hi⟩
    rcases train_token2id_some _ _ heot with ⟨j, hj⟩
    have hne : (BPETokenizer.train atomicity_corpus tvs).token2id ≠ [] := by
      intro hnil
      rw [hnil] at hi
      cases hi
    refine ⟨i, j, (pysplit " ایک دن ".toList).flatMap fun w =>
      (tokenize_word (BPETokenizer.train atomicity_corpus tvs).merges w).map
        fun s => (lookupA s (BPETokenizer.train atomicity_corpus tvs).token2id).getD 0,
      hi, hj, ?_⟩
    unfold BPETokenizer.encode
    rw [if_neg hne]
    have hsplit : splitSpecials atomicity_corpus =
        [[], "<EOS>".toList, " ایک دن ".toList, "<EOT>".toList, []] := by decide
    rw [hsplit]
    simp only [List.flatMap_cons, List.flatMap_nil]
    have hi' : lookupA ['<', 'E', 'O', 'S', '>']
        (BPETokenizer.train atomicity_corpus tvs).token2id = some i := hi
    have hj' : lookupA ['<', 'E', 'O', 'T', '>']
        (BPETokenizer.train atomicity_corpus tvs).token2id = some j := hj
    simp +decide [hi', hj']

/-- Witness for C6 at `target_vocab_size = 250`, on the specification's
corpus: `<EOS>` is in the trained vocabulary and the learned rule merging
`ا` with `ی` touches no control token. -/
theorem claim_C6_witness :
    "<EOS>".toList ∈ (BPETokenizer.train atomicity_corpus 250).vocab ∧
      (['ا'] ∉ special_tokens ∧ ['ی'] ∉ special_tokens) :=
  ⟨(claim_C6_control_atomicity.1 atomicity_corpus 250).1 "<EOS>".toList (by decide),
   (claim_C6_control_atomicity.1 atomicity_corpus 250).2 ((['ا'], ['ی']), ['ا', 'ی'])
     (by decide)⟩

/-! ### Determinism and lexicographic id assignment (claim C7) -/

theorem addUnique_nodup {x : Sym} {l : List Sym} (h : l.Nodup) :
    (addUnique x l).Nodup := by
  unfold addUnique
  split
  · exact h
  · rename_i hx
    simp [List.nodup_append, h, hx]

theorem foldl_addUnique_nodup (l : List Sym) :
    ∀ acc : List Sym, acc.Nodup → (l.foldl (fun a s => addUnique s a) acc).Nodup := by
  induction l with
  | nil => intro acc h; exact h
  | cons s l' ih => intro acc h; exact ih _ (addUnique_nodup h)

theorem initial_tokens_nodup (vocab : List (List Sym × ℕ)) :
    ∀ acc : List Sym, acc.Nodup →
      (vocab.foldl (fun acc e => e.1.foldl (fun a s => addUnique s a) acc) acc).Nodup := by
  induction vocab with
  | nil => intro acc h; exact h
  | cons e rest ih => intro acc h; exact ih _ (foldl_addUnique_nodup e.1 acc h)

theorem bpeLoop_uniq_nodup (n : ℕ) :
    ∀ (vocab : List (List Sym × ℕ)) (uniq : List Sym)
      (merges : List ((Sym × Sym) × Sym)), uniq.Nodup →
      ((bpeLoop n vocab uniq merges).2.1).Nodup := by
  induction n with
  | zero => intro vocab uniq merges h; exact h
  | succ n ih =>
    intro vocab uniq merges h
    simp only [bpeLoop]
    split
    · exact h
    · split
      · exact h
      · split
        · exact h
        · exact ih _ _ _ (addUnique_nodup h)

theorem train_vocab_nodup (corpus : List Char) (tvs : ℕ) :
    (BPETokenizer.train corpus tvs).vocab.Nodup := by
  rw [train_vocab_eq]
  exact foldl_addUnique_nodup special_tokens _
    (bpeLoop_uniq_nodup _ _ _ _ (initial_tokens_nodup _ [] List.nodup_nil))

theorem mem_enumIds :
    ∀ (l : List Sym) (k : ℕ) (a : Sym) (i : ℕ),
      (a, i) ∈ enumIds k l → k ≤ i ∧ l[i - k]? = some a := by
  intro l
  induction l with
  | nil => intro k a i h; cases h
  | cons t ts ih =>
    intro k a i h
    unfold enumIds at h
    rcases List.mem_cons.mp h with h' | h'
    · have h1 : a = t := congrArg Prod.fst h'
      have h2 : i = k := congrArg Prod.snd h'
      subst h1; subst h2
      simp
    · rcases ih (k + 1) a i h' with ⟨hk, hget⟩
      constructor
      · omega
      · have : i - k = (i - (k + 1)) + 1 := by omega
        rw [this, List.getElem?_cons_succ]
        exact hget

theorem sorted_nodup_index_iff (S : List Sym) (hs : S.Sorted (· ≤ ·)) (hn : S.Nodup)
    (i j : ℕ) (a b : Sym) (ha : S[i]? = some a) (hb : S[j]? = some b) :
    i ≤ j ↔ a ≤ b := by
  rcases List.getElem?_eq_some_iff.mp ha with ⟨hil, ha'⟩
  rcases List.getElem?_eq_some_iff.mp hb with ⟨hjl, hb'⟩
  have hga : S.get ⟨i, hil⟩ = a := ha'
  have hgb : S.get ⟨j, hjl⟩ = b := hb'
  constructor
  · intro hij
    rcases Nat.lt_or_ge i j with hlt | hge
    · have h1 := hs.rel_get_of_lt (show (⟨i, hil⟩ : Fin S.length) < ⟨j, hjl⟩ from hlt)
      rwa [hga, hgb] at h1
    · have heq : i = j := by omega
      subst heq
      exact le_of_eq (by rw [← hga, ← hgb])
  · intro hab
    by_contra hij
    have hji : j < i := by omega
    have hba := hs.rel_get_of_lt (show (⟨j, hjl⟩ : Fin S.length) < ⟨i, hil⟩ from hji)
    rw [hga, hgb] at hba
    have hne : b ≠ a := by
      intro heq
      have hgeq : S.get ⟨j, hjl⟩ = S.get ⟨i, hil⟩ := by rw [hga, hgb, heq]
      have hfe := (List.Nodup.get_inj_iff hn).mp hgeq
      have : j = i := by simpa using hfe
      omega
    exact absurd hab (not_le.mpr (lt_of_le_of_ne hba hne))

/-- C7: training is deterministic — identical corpus and identical
`target_vocab_size` give identical trained state (the embedding is a pure
function of its arguments; the source's only implementation-defined order,
the iteration over the control-token set, merely renames placeholders and
cannot reach the trained state) — and ids are assigned by lexicographic sort
of the vocabulary strings: `token_to_id` is exactly the rank function of the
code-point order on the vocabulary. -/
theorem claim_C7_determinism :
    (∀ (c1 c2 : List Char) (t1 t2 : ℕ), c1 = c2 → t1 = t2 →
        BPETokenizer.train c1 t1 = BPETokenizer.train c2 t2) ∧
      (∀ (corpus : List Char) (tvs : ℕ) (a b : Sym) (i j : ℕ),
        (a, i) ∈ (BPETokenizer.train corpus tvs).token2id →
        (b, j) ∈ (BPETokenizer.train corpus tvs).token2id →
        (i ≤ j ↔ a ≤ b)) := by
  constructor
  · intro c1 c2 t1 t2 hc ht
    rw [hc, ht]
  · intro corpus tvs a b i j ha hb
    rw [train_token2id_eq] at ha hb
    have hVnodup : (special_tokens.foldl (fun a s => addUnique s a)
        ((bpeLoop (tvs - (initial_inventory corpus).length) (initial_vocab corpus)
          (initial_inventory corpus) []).2.1)).Nodup := by
      have := train_vocab_nodup corpus tvs
      rwa [train_vocab_eq] at this
    have hsorted := List.sorted_insertionSort (α := Sym) (· ≤ ·)
      (special_tokens.foldl (fun a s => addUnique s a)
        ((bpeLoop (tvs - (initial_inventory corpus).length) (initial_vocab corpus)
          (initial_inventory corpus) []).2.1))
    have hnodup : (lexSort (special_tokens.foldl (fun a s => addUnique s a)
        ((bpeLoop (tvs - (initial_inventory corpus).length) (initial_vocab corpus)
          (initial_inventory corpus) []).2.1))).Nodup :=
      ((List.perm_insertionSort _ _).nodup_iff).mpr hVnodup
    rcases mem_enumIds _ 0 a i ha with ⟨-, hga⟩
    rcases mem_enumIds _ 0 b j hb with ⟨-, hgb⟩
    rw [Nat.sub_zero] at hga hgb
    exact sorted_nodup_index_iff _ hsorted hnodup i j a b hga hgb

/-- Witness for C7 on the corpus `"ab"`: `</w>` gets id 0, `a` gets id 4,
matching the lexicographic order. -/
theorem claim_C7_witness :
    BPETokenizer.train "ab".toList 0 = BPETokenizer.train "ab".toList 0 ∧
      ((0 : ℕ) ≤ 4 ↔ "</w>".toList ≤ ['a']) :=
  ⟨claim_C7_determinism.1 "ab".toList "ab".toList 0 0 rfl rfl,
   claim_C7_determinism.2 "ab".toList 0 "</w>".toList ['a'] 0 4 (by decide) (by decide)⟩

/-! ### Round-trip behaviour (claim C8) -/

theorem replaceAllGo_fuel_irrel (pat repl : List Char) :
    ∀ (f1 : ℕ) (f2 : ℕ) (s : List Char), s.length ≤ f1 → s.length ≤ f2 →
      replaceAllGo pat repl f1 s = replaceAllGo pat repl f2 s := by
  intro f1
  induction f1 with
  | zero =>
    intro f2 s h1 h2
    have : s = [] := List.eq_nil_of_length_eq_zero (Nat.le_zero.mp h1)
    subst this
    cases f2 <;> rfl
  | succ f1 ih =>
    intro f2 s h1 h2
    cases s with
    | nil => cases f2 <;> rfl
    | cons c rest =>
      cases f2 with
      | zero => simp at h2
      | succ f2 =>
        show (if pat ≠ [] ∧ pat <+: (c :: rest) then
            repl ++ replaceAllGo pat repl f1 ((c :: rest).drop pat.length)
          else c :: replaceAllGo pat repl f1 rest) =
          (if pat ≠ [] ∧ pat <+: (c :: rest) then
            repl ++ replaceAllGo pat repl f2 ((c :: rest).drop pat.length)
          else c :: replaceAllGo pat repl f2 rest)
        by_cases h : pat ≠ [] ∧ pat <+: (c :: rest)
        · rw [if_pos h, if_pos h]
          have hplen : 1 ≤ pat.length :=
            List.length_pos.mpr h.1
          have hd : ((c :: rest).drop pat.length).length ≤ rest.length := by
            rw [List.length_drop, List.length_cons]
            omega
          rw [ih f2 _ (by simp at h1; omega) (by simp at h2; omega)]
        · rw [if_neg h, if_neg h]
          rw [ih f2 rest (by simp at h1; omega) (by simp at h2; omega)]

theorem replaceAll_nil (pat repl : List Char) : replaceAll pat repl [] = [] := rfl

theorem replaceAll_cons_nomatch (pat repl : List Char) (c : Char) (s : List Char)
    (h : ¬pat <+: (c :: s)) :
    replaceAll pat repl (c :: s) = c :: replaceAll pat repl s := by
  unfold replaceAll
  show (if pat ≠ [] ∧ pat <+: (c :: s) then
      repl ++ replaceAllGo pat repl s.length ((c :: s).drop pat.length)
    else c :: replaceAllGo pat repl s.length s) = _
  rw [if_neg (fun hh => h hh.2)]

theorem replaceAll_cons_match (pat repl : List Char) (c : Char) (s : List Char)
    (hne : pat ≠ []) (hp : pat <+: (c :: s)) :
    replaceAll pat repl (c :: s) = repl ++ replaceAll pat repl ((c :: s).drop pat.length) := by
  unfold replaceAll
  show (if pat ≠ [] ∧ pat <+: (c :: s) then
      repl ++ replaceAllGo pat repl s.length ((c :: s).drop pat.length)
    else c :: replaceAllGo pat repl s.length s) = _
  rw [if_pos ⟨hne, hp⟩]
  have hplen : 1 ≤ pat.length := List.length_pos.mpr hne
  have hd : ((c :: s).drop pat.length).length ≤ s.length := by
    rw [List.length_drop, List.length_cons]
    omega
  rw [replaceAllGo_fuel_irrel pat repl s.length ((c :: s).drop pat.length).length _ hd
    (le_refl _)]

theorem joinSpace_cons₂ (w v : List Char) (ws : List (List Char)) :
    joinSpace (w :: v :: ws) = w ++ ' ' :: joinSpace (v :: ws) := rfl

theorem pysplitAux_cons (c : Char) (rest cur : List Char) :
    pysplitAux (c :: rest) cur =
      if c.isWhitespace then
        (if cur.isEmpty then pysplitAux rest [] else cur.reverse :: pysplitAux rest [])
      else pysplitAux rest (c :: cur) := rfl

theorem pysplitAux_word :
    ∀ (w rest cur : List Char), (∀ c ∈ w, ¬c.isWhitespace) →
      pysplitAux (w ++ rest) cur = pysplitAux rest (w.reverse ++ cur) := by
  intro w
  induction w with
  | nil => intro rest cur _; simp
  | cons c w' ih =>
    intro rest cur h
    have hc : ¬c.isWhitespace = true := h c (List.mem_cons_self _ _)
    show (if c.isWhitespace then _ else pysplitAux (w' ++ rest) (c :: cur)) = _
    rw [if_neg hc, ih rest (c :: cur) (fun x hx => h x (List.mem_cons_of_mem _ hx))]
    congr 1
    simp

theorem pysplit_joinSpace :
    ∀ (ws : List (List Char)),
      (∀ w ∈ ws, w ≠ [] ∧ ∀ c ∈ w, ¬c.isWhitespace) →
      pysplit (joinSpace ws) = ws := by
  intro ws
  induction ws with
  | nil => intro _; rfl
  | cons w vs ih =>
    intro h
    rcases h w (List.mem_cons_self _ _) with ⟨hwne, hwchars⟩
    cases vs with
    | nil =>
      show pysplitAux (joinSpace [w]) [] = [w]
      have : joinSpace [w] = w ++ [] := by simp [joinSpace]
      rw [this, pysplitAux_word w [] [] hwchars]
      show (if (w.reverse ++ []).isEmpty then [] else [(w.reverse ++ []).reverse]) = [w]
      rw [if_neg (by simpa [List.isEmpty_iff] using hwne)]
      simp
    | cons v vs' =>
      rw [joinSpace_cons₂]
      show pysplitAux (w ++ ' ' :: joinSpace (v :: vs')) [] = w :: v :: vs'
      rw [pysplitAux_word w _ [] hwchars, pysplitAux_cons]
      rw [if_pos (by decide)]
      rw [if_neg (by simpa [List.isEmpty_iff] using hwne)]
      have := ih (fun x hx => h x (List.mem_cons_of_mem _ hx))
      rw [show pysplitAux (joinSpace (v :: vs')) [] = pysplit (joinSpace (v :: vs')) from rfl,
        this]
      simp

theorem splitSpecialsGo_cons (fuel : ℕ) (c : Char) (rest cur : List Char) :
    splitSpecialsGo (fuel + 1) (c :: rest) cur =
      if "<EOS>".toList <+: (c :: rest) then
        cur.reverse :: "<EOS>".toList :: splitSpecialsGo fuel ((c :: rest).drop 5) []
      else if "<EOP>".toList <+: (c :: rest) then
        cur.reverse :: "<EOP>".toList :: splitSpecialsGo fuel ((c :: rest).drop 5) []
      else if "<EOT>".toList <+: (c :: rest) then
        cur.reverse :: "<EOT>".toList :: splitSpecialsGo fuel ((c :: rest).drop 5) []
      else splitSpecialsGo fuel rest (c :: cur) := rfl

theorem splitSpecialsGo_no_special :
    ∀ (fuel : ℕ) (s cur : List Char), s.length ≤ fuel → '<' ∉ s →
      splitSpecialsGo fuel s cur = [cur.reverse ++ s] := by
  intro fuel
  induction fuel with
  | zero =>
    intro s cur h1 _
    have : s = [] := List.eq_nil_of_length_eq_zero (Nat.le_zero.mp h1)
    subst this
    simp [splitSpecialsGo]
  | succ fuel ih =>
    intro s cur h1 h2
    cases s with
    | nil => simp [splitSpecialsGo]
    | cons c rest =>
      have hc : c ≠ '<' := fun hh => h2 (hh ▸ List.mem_cons_self _ _)
      have hno : ∀ (t : List Char), t.head? = some '<' → ¬t <+: (c :: rest) := by
        intro t ht hp
        cases t with
        | nil => simp at ht
        | cons a t' =>
          have ha : a = '<' := by simpa using ht
          exact hc ((List.cons_prefix_cons.mp hp).1.symm.trans ha)
      rw [splitSpecialsGo_cons]
      rw [if_neg (hno "<EOS>".toList (by decide)), if_neg (hno "<EOP>".toList (by decide)),
        if_neg (hno "<EOT>".toList (by decide))]
      rw [ih rest (c :: cur) (by simp at h1; omega)
        (fun hh => h2 (List.mem_cons_of_mem _ hh))]
      simp

theorem splitSpecials_no_special (s : List Char) (h : '<' ∉ s) :
    splitSpecials s = [s] := by
  unfold splitSpecials
  rw [splitSpecialsGo_no_special s.length s [] (le_refl _) h]
  simp

theorem mergePass_nil (p1 p2 m : Sym) : mergePass p1 p2 m [] = [] := rfl

theorem mergePass_single (p1 p2 m x : Sym) : mergePass p1 p2 m [x] = [x] := rfl

theorem mergePass_pair (p1 p2 m a b : Sym) :
    mergePass p1 p2 m [a, b] =
      if a = p1 ∧ b = p2 then [m] else [a, b] := by
  show (if a = p1 ∧ b = p2 then m :: mergePass p1 p2 m []
    else a :: mergePass p1 p2 m [b]) = _
  by_cases h : a = p1 ∧ b = p2
  · rw [if_pos h, if_pos h, mergePass_nil]
  · rw [if_neg h, if_neg h, mergePass_single]

theorem foldl_mergePass_single (ms : List ((Sym × Sym) × Sym)) (x : Sym) :
    ms.foldl (fun syms r => mergePass r.1.1 r.1.2 r.2 syms) [x] = [x] := by
  induction ms with
  | nil => rfl
  | cons r ms ih => rw [List.foldl_cons, mergePass_single]; exact ih

theorem foldl_mergePass_pair (c : Char) :
    ∀ (ms : List ((Sym × Sym) × Sym)),
      ms.foldl (fun syms r => mergePass r.1.1 r.1.2 r.2 syms) [[c], END_OF_WORD] =
          [[c], END_OF_WORD] ∨
        ∃ r ∈ ms, r.1 = ([c], END_OF_WORD) ∧
          ms.foldl (fun syms r => mergePass r.1.1 r.1.2 r.2 syms) [[c], END_OF_WORD] =
            [r.2] := by
  intro ms
  induction ms with
  | nil => exact Or.inl rfl
  | cons r ms ih =>
    rw [List.foldl_cons]
    by_cases h : [c] = r.1.1 ∧ END_OF_WORD = r.1.2
    · refine Or.inr ⟨r, List.mem_cons_self _ _, ?_, ?_⟩
      · exact Prod.ext h.1.symm h.2.symm
      · show ms.foldl _ (mergePass r.1.1 r.1.2 r.2 [[c], END_OF_WORD]) = [r.2]
        rw [mergePass_pair, if_pos h, foldl_mergePass_single]
    · show (ms.foldl _ (mergePass r.1.1 r.1.2 r.2 [[c], END_OF_WORD]) =
          [[c], END_OF_WORD]) ∨ _
      rw [mergePass_pair, if_neg h]
      rcases ih with h' | ⟨r', hr', hfst, hres⟩
      · exact Or.inl h'
      · exact Or.inr ⟨r', List.mem_cons_of_mem _ hr', hfst, hres⟩

theorem tokenize_word_single (ms : List ((Sym × Sym) × Sym)) (c : Char) :
    tokenize_word ms [c] = [[c], END_OF_WORD] ∨
      ∃ r ∈ ms, r.1 = ([c], END_OF_WORD) ∧ tokenize_word ms [c] = [r.2] := by
  have : tokenize_word ms [c] =
      ms.foldl (fun syms r => mergePass r.1.1 r.1.2 r.2 syms) [[c], END_OF_WORD] := rfl
  rw [this]
  exact foldl_mergePass_pair c ms

theorem tokenize_word_single_train (corpus : List Char) (tvs : ℕ) (c : Char) :
    tokenize_word (BPETokenizer.train corpus tvs).merges [c] = [[c], END_OF_WORD] ∨
      (tokenize_word (BPETokenizer.train corpus tvs).merges [c] = [[c] ++ END_OF_WORD] ∧
        ([c] ++ END_OF_WORD) ∈ (BPETokenizer.train corpus tvs).vocab) := by
  rcases tokenize_word_single (BPETokenizer.train corpus tvs).merges c with h | ⟨r, hr, hfst, hres⟩
  · exact Or.inl h
  · rcases train_merges_good corpus tvs r hr with ⟨⟨_, hmerged⟩, hmem⟩
    have hr2 : r.2 = [c] ++ END_OF_WORD := by
      rw [hmerged, hfst]
    exact Or.inr ⟨by rw [hres, hr2], hr2 ▸ hmem⟩

theorem lookupA_enumIds_ge :
    ∀ (l : List Sym) (k : ℕ) (s : Sym) (i : ℕ),
      lookupA s (enumIds k l) = some i → k ≤ i := by
  intro l
  induction l with
  | nil => intro k s i h; simp [enumIds, lookupA] at h
  | cons t ts ih =>
    intro k s i h
    unfold enumIds lookupA at h
    by_cases hs : s = t
    · rw [if_pos hs] at h
      injection h with h'
      omega
    · rw [if_neg hs] at h
      have := ih (k + 1) s i h
      omega

theorem lookupA_enumIds_swap :
    ∀ (l : List Sym) (k : ℕ) (s : Sym) (i : ℕ),
      lookupA s (enumIds k l) = some i →
      lookupA i ((enumIds k l).map fun p => (p.2, p.1)) = some s := by
  intro l
  induction l with
  | nil => intro k s i h; simp [enumIds, lookupA] at h
  | cons t ts ih =>
    intro k s i h
    unfold enumIds lookupA at h
    unfold enumIds
    rw [List.map_cons]
    by_cases hs : s = t
    · rw [if_pos hs] at h
      have hik : i = k := by injection h with h'; omega
      subst hik
      subst hs
      unfold lookupA
      rw [if_pos rfl]
    · rw [if_neg hs] at h
      have hge := lookupA_enumIds_ge ts (k + 1) s i h
      unfold lookupA
      rw [if_neg (by omega : ¬i = k)]
      exact ih (k + 1) s i h

theorem build_index_snd (V : List Sym) :
    (build_index V).2 = (build_index V).1.map fun p => (p.2, p.1) := rfl

theorem train_id2token_eq (corpus : List Char) (tvs : ℕ) :
    (BPETokenizer.train corpus tvs).id2token =
      (BPETokenizer.train corpus tvs).token2id.map fun p => (p.2, p.1) := by
  rw [train_eq]
  simp only []
  rw [build_index_snd]

theorem id2token_of_token2id (corpus : List Char) (tvs : ℕ) (s : Sym) (i : ℕ)
    (h : lookupA s (BPETokenizer.train corpus tvs).token2id = some i) :
    lookupA i (BPETokenizer.train corpus tvs).id2token = some s := by
  rw [train_id2token_eq, train_token2id_eq]
  rw [train_token2id_eq] at h
  exact lookupA_enumIds_swap _ 0 s i h

/-- The decode-side symbol stream of an encoded text whose words are single
characters: each word contributes either the split pair `[c], </w>` or the
merged symbol `c</w>`. -/
inductive TokensOf : List Char → List Sym → Prop
  | nil : TokensOf [] []
  | split (c : Char) (cs : List Char) (rest : List Sym) :
      TokensOf cs rest → TokensOf (c :: cs) ([c] :: END_OF_WORD :: rest)
  | merged (c : Char) (cs : List Char) (rest : List Sym) :
      TokensOf cs rest → TokensOf (c :: cs) (([c] ++ END_OF_WORD) :: rest)

/-- The stream shape after the first cleanup pass has removed the stand-alone
end-of-word markers. -/
inductive Tokens1Of : List Char → List Sym → Prop
  | nil : Tokens1Of [] []
  | bare (c : Char) (cs : List Char) (rest : List Sym) :
      Tokens1Of cs rest → Tokens1Of (c :: cs) ([c] :: rest)
  | merged (c : Char) (cs : List Char) (rest : List Sym) :
      Tokens1Of cs rest → Tokens1Of (c :: cs) (([c] ++ END_OF_WORD) :: rest)

/-- The space-prefixed continuation of a joined token list (`""` when the list
is empty). -/
def joinTail (ws : List (List Char)) : List Char :=
  match ws with
  | [] => []
  | _ :: _ => ' ' :: joinSpace ws

theorem joinSpace_eq_joinTail (w : List Char) (ws : List (List Char)) :
    joinSpace (w :: ws) = w ++ joinTail ws := by
  cases ws with
  | nil => simp [joinSpace, joinTail]
  | cons v vs => rw [joinSpace_cons₂]; rfl

theorem not_prefix_sp (a : Char) (ha : a ≠ ' ') (Z : List Char) :
    ¬(' ' :: END_OF_WORD) <+: (a :: Z) := fun hp =>
  ha ((List.cons_prefix_cons.mp hp).1.symm)

theorem not_prefix_eow (a : Char) (ha : a ≠ '<') (Z : List Char) :
    ¬END_OF_WORD <+: (a :: Z) := fun hp => by
  rw [show END_OF_WORD = '<' :: "/w>".toList from rfl] at hp
  exact ha ((List.cons_prefix_cons.mp hp).1.symm)

theorem not_prefix_sp_sp (Z : List Char) (a : Char) (ha : a ≠ '<') :
    ¬(' ' :: END_OF_WORD) <+: (' ' :: a :: Z) := fun hp =>
  not_prefix_eow a ha Z (List.cons_prefix_cons.mp hp).2

theorem prefix_sp_eow (Y : List Char) :
    (' ' :: END_OF_WORD) <+: (' ' :: (END_OF_WORD ++ Y)) :=
  List.cons_prefix_cons.mpr ⟨rfl, List.prefix_append _ _⟩

theorem drop_sp_eow (Y : List Char) :
    (' ' :: (END_OF_WORD ++ Y)).drop (' ' :: END_OF_WORD).length = Y := rfl

theorem replaceAll_eow_append (Y : List Char) :
    replaceAll END_OF_WORD [] (END_OF_WORD ++ Y) = replaceAll END_OF_WORD [] Y := by
  rw [show END_OF_WORD ++ Y = '<' :: ('/' :: 'w' :: '>' :: Y) from rfl,
    replaceAll_cons_match _ _ _ _ (by decide)
      (show END_OF_WORD <+: '<' :: ('/' :: 'w' :: '>' :: Y) from List.prefix_append _ _),
    show ('<' :: ('/' :: 'w' :: '>' :: Y)).drop END_OF_WORD.length = Y from rfl,
    List.nil_append]

theorem pass1_strong (cs : List Char) (toks : List Sym) (h : TokensOf cs toks)
    (hchars : ∀ c ∈ cs, ¬c.isWhitespace ∧ c ≠ '<') :
    ∃ toks1, Tokens1Of cs toks1 ∧
      replaceAll (' ' :: END_OF_WORD) [] (joinSpace toks) = joinSpace toks1 ∧
      replaceAll (' ' :: END_OF_WORD) [] (joinTail toks) = joinTail toks1 := by
  induction h with
  | nil => exact ⟨[], Tokens1Of.nil, rfl, rfl⟩
  | split c cs rest htail ih =>
    rcases hchars c (List.mem_cons_self _ _) with ⟨hws, hlt⟩
    have hcne : c ≠ ' ' := fun hh => hws (by rw [hh]; decide)
    rcases ih (fun x hx => hchars x (List.mem_cons_of_mem _ hx)) with ⟨toks1, hT, hJ, hTl⟩
    have hshape : joinSpace ([c] :: END_OF_WORD :: rest) =
        c :: ' ' :: (END_OF_WORD ++ joinTail rest) := by
      rw [joinSpace_cons₂, joinSpace_eq_joinTail]
      rfl
    have hmain : replaceAll (' ' :: END_OF_WORD) [] (joinSpace ([c] :: END_OF_WORD :: rest)) =
        joinSpace ([c] :: toks1) := by
      rw [hshape, replaceAll_cons_nomatch _ _ _ _ (not_prefix_sp c hcne _),
        replaceAll_cons_match _ _ _ _ (by decide) (prefix_sp_eow _), drop_sp_eow, hTl,
        List.nil_append, joinSpace_eq_joinTail]
      rfl
    refine ⟨[c] :: toks1, Tokens1Of.bare c cs toks1 hT, hmain, ?_⟩
    rw [show joinTail ([c] :: END_OF_WORD :: rest) =
        ' ' :: joinSpace ([c] :: END_OF_WORD :: rest) from rfl,
      show joinTail ([c] :: toks1) = ' ' :: joinSpace ([c] :: toks1) from rfl,
      hshape, replaceAll_cons_nomatch _ _ _ _ (not_prefix_sp_sp _ c hlt), ← hshape, hmain]
  | merged c cs rest htail ih =>
    rcases hchars c (List.mem_cons_self _ _) with ⟨hws, hlt⟩
    have hcne : c ≠ ' ' := fun hh => hws (by rw [hh]; decide)
    rcases ih (fun x hx => hchars x (List.mem_cons_of_mem _ hx)) with ⟨toks1, hT, hJ, hTl⟩
    have hshape : joinSpace (([c] ++ END_OF_WORD) :: rest) =
        c :: '<' :: '/' :: 'w' :: '>' :: joinTail rest := by
      rw [joinSpace_eq_joinTail]
      rfl
    have hmain : replaceAll (' ' :: END_OF_WORD) []
          (joinSpace (([c] ++ END_OF_WORD) :: rest)) =
        joinSpace (([c] ++ END_OF_WORD) :: toks1) := by
      rw [hshape, replaceAll_cons_nomatch _ _ _ _ (not_prefix_sp c hcne _),
        replaceAll_cons_nomatch _ _ _ _ (not_prefix_sp '<' (by decide) _),
        replaceAll_cons_nomatch _ _ _ _ (not_prefix_sp '/' (by decide) _),
        replaceAll_cons_nomatch _ _ _ _ (not_prefix_sp 'w' (by decide) _),
        replaceAll_cons_nomatch _ _ _ _ (not_prefix_sp '>' (by decide) _),
        hTl, joinSpace_eq_joinTail]
      rfl
    refine ⟨([c] ++ END_OF_WORD) :: toks1, Tokens1Of.merged c cs toks1 hT, hmain, ?_⟩
    rw [show joinTail (([c] ++ END_OF_WORD) :: rest) =
        ' ' :: joinSpace (([c] ++ END_OF_WORD) :: rest) from rfl,
      show joinTail (([c] ++ END_OF_WORD) :: toks1) =
        ' ' :: joinSpace (([c] ++ END_OF_WORD) :: toks1) from rfl,
      hshape, replaceAll_cons_nomatch _ _ _ _ (not_prefix_sp_sp _ c hlt), ← hshape, hmain]

theorem pass2_strong (cs : List Char) (toks1 : List Sym) (h : Tokens1Of cs toks1)
    (hchars : ∀ c ∈ cs, ¬c.isWhitespace ∧ c ≠ '<') :
    replaceAll END_OF_WORD [] (joinSpace toks1) = joinSpace (cs.map fun c => [c]) ∧
    replaceAll END_OF_WORD [] (joinTail toks1) = joinTail (cs.map fun c => [c]) := by
  induction h with
  | nil => exact ⟨rfl, rfl⟩
  | bare c cs rest htail ih =>
    rcases hchars c (List.mem_cons_self _ _) with ⟨hws, hlt⟩
    rcases ih (fun x hx => hchars x (List.mem_cons_of_mem _ hx)) with ⟨hJ, hTl⟩
    have hshape : joinSpace ([c] :: rest) = c :: joinTail rest := by
      rw [joinSpace_eq_joinTail]
      rfl
    have hmain : replaceAll END_OF_WORD [] (joinSpace ([c] :: rest)) =
        joinSpace ((c :: cs).map fun c => [c]) := by
      rw [hshape, replaceAll_cons_nomatch _ _ _ _ (not_prefix_eow c hlt _), hTl,
        List.map_cons, joinSpace_eq_joinTail]
      rfl
    refine ⟨hmain, ?_⟩
    rw [show joinTail ([c] :: rest) = ' ' :: joinSpace ([c] :: rest) from rfl,
      show joinTail ((c :: cs).map fun c => [c]) =
        ' ' :: joinSpace ((c :: cs).map fun c => [c]) from rfl,
      replaceAll_cons_nomatch _ _ _ _ (not_prefix_eow ' ' (by decide) _), hmain]
  | merged c cs rest htail ih =>
    rcases hchars c (List.mem_cons_self _ _) with ⟨hws, hlt⟩
    rcases ih (fun x hx => hchars x (List.mem_cons_of_mem _ hx)) with ⟨hJ, hTl⟩
    have hshape : joinSpace (([c] ++ END_OF_WORD) :: rest) =
        c :: (END_OF_WORD ++ joinTail rest) := by
      rw [joinSpace_eq_joinTail]
      rfl
    have hmain : replaceAll END_OF_WORD [] (joinSpace (([c] ++ END_OF_WORD) :: rest)) =
        joinSpace ((c :: cs).map fun c => [c]) := by
      rw [hshape, replaceAll_cons_nomatch _ _ _ _ (not_prefix_eow c hlt _),
        replaceAll_eow_append, hTl, List.map_cons, joinSpace_eq_joinTail]
      rfl
    refine ⟨hmain, ?_⟩
    rw [show joinTail (([c] ++ END_OF_WORD) :: rest) =
        ' ' :: joinSpace (([c] ++ END_OF_WORD) :: rest) from rfl,
      show joinTail ((c :: cs).map fun c => [c]) =
        ' ' :: joinSpace ((c :: cs).map fun c => [c]) from rfl,
      replaceAll_cons_nomatch _ _ _ _ (not_prefix_eow ' ' (by decide) _), hmain]

theorem pystrip_eq_self (s : List Char)
    (hh : ∀ c, s.head? = some c → ¬c.isWhitespace)
    (hl : ∀ c, s.getLast? = some c → ¬c.isWhitespace) :
    pystrip s = s := by
  unfold pystrip
  cases s with
  | nil => rfl
  | cons a rest =>
    have ha : ¬Char.isWhitespace a := hh a rfl
    rw [List.dropWhile_cons_of_neg ha]
    rcases hrev : (a :: rest).reverse with _ | ⟨d, t'⟩
    · exact absurd hrev (by simp)
    · have hd : (a :: rest).getLast? = some d := by
        rw [← List.head?_reverse, hrev]; rfl
      have hdws : ¬Char.isWhitespace d := hl d hd
      rw [List.dropWhile_cons_of_neg hdws, ← hrev, List.reverse_reverse]

theorem joinSingle_head (c : Char) (cs : List Char) :
    (joinSpace ((c :: cs).map fun c => [c])).head? = some c := by
  rw [List.map_cons, joinSpace_eq_joinTail]
  rfl

theorem joinSingle_last :
    ∀ (cs : List Char) (c : Char),
      ∃ d ∈ c :: cs, (joinSpace ((c :: cs).map fun x => [x])).getLast? = some d := by
  intro cs
  induction cs with
  | nil => intro c; exact ⟨c, List.mem_cons_self _ _, rfl⟩
  | cons c' cs' ih =>
    intro c
    rcases ih c' with ⟨d, hd, hlast⟩
    refine ⟨d, List.mem_cons_of_mem _ hd, ?_⟩
    rw [List.map_cons] at hlast
    rw [List.map_cons, List.map_cons, joinSpace_cons₂, List.getLast?_append,
      show (' ' :: joinSpace ([c'] :: cs'.map fun x => [x])) =
        [' '] ++ joinSpace ([c'] :: cs'.map fun x => [x]) from rfl,
      List.getLast?_append, hlast]
    rfl

theorem mem_joinSingle :
    ∀ (cs : List Char) (x : Char), x ∈ joinSpace (cs.map fun c => [c]) → x ∈ cs ∨ x = ' ' := by
  intro cs
  induction cs with
  | nil => intro x hx; cases hx
  | cons c cs ih =>
    intro x hx
    cases cs with
    | nil =>
      simp [joinSpace] at hx
      exact Or.inl (by simp [hx])
    | cons c' cs' =>
      simp only [List.map_cons, joinSpace_cons₂] at hx
      rcases List.mem_append.mp hx with h | h
      · have : x = c := by simpa using h
        exact Or.inl (this ▸ List.mem_cons_self _ _)
      · rcases List.mem_cons.mp h with h' | h'
        · exact Or.inr h'
        · have hx' : x ∈ joinSpace ((c' :: cs').map fun c => [c]) := by
            simp only [List.map_cons]
            exact h'
          rcases ih x hx' with h'' | h''
          · exact Or.inl (List.mem_cons_of_mem _ h'')
          · exact Or.inr h''

theorem encode_ok_eq (t : BPETokenizer) (text : List Char) (h : ¬t.token2id = []) :
    t.encode text = .ok ((splitSpecials text).flatMap fun part =>
      if part = [] then []
      else if part ∈ special_tokens then [(lookupA part t.token2id).getD 0]
      else (pysplit part).flatMap fun w =>
        (tokenize_word t.merges w).map fun s => (lookupA s t.token2id).getD 0) := by
  unfold BPETokenizer.encode
  rw [if_neg h]

theorem decode_eq (t : BPETokenizer) (ids : List ℕ) (h : ¬t.id2token = []) :
    t.decode ids = .ok (pystrip (replaceAll END_OF_WORD []
      (replaceAll (' ' :: END_OF_WORD) [] (joinSpace (ids.map fun i =>
        (lookupA i t.id2token).getD []))))) := by
  unfold BPETokenizer.decode
  rw [if_neg h]

theorem group_map_roundtrip (corpus : List Char) (tvs : ℕ) (c : Char)
    (hc : (lookupA [c] (BPETokenizer.train corpus tvs).token2id).isSome = true)
    (he : (lookupA END_OF_WORD (BPETokenizer.train corpus tvs).token2id).isSome = true) :
    (((tokenize_word (BPETokenizer.train corpus tvs).merges [c]).map
        fun s => (lookupA s (BPETokenizer.train corpus tvs).token2id).getD 0).map
      (fun i => (lookupA i (BPETokenizer.train corpus tvs).id2token).getD []) =
      tokenize_word (BPETokenizer.train corpus tvs).merges [c]) ∧
    (tokenize_word (BPETokenizer.train corpus tvs).merges [c] = [[c], END_OF_WORD] ∨
      tokenize_word (BPETokenizer.train corpus tvs).merges [c] = [[c] ++ END_OF_WORD]) := by
  rcases Option.isSome_iff_exists.mp hc with ⟨ic, hic⟩
  rcases Option.isSome_iff_exists.mp he with ⟨ie, hie⟩
  rcases tokenize_word_single_train corpus tvs c with h | ⟨h, hmem⟩
  · constructor
    · rw [h]
      simp only [List.map_cons, List.map_nil]
      rw [hic, hie]
      simp only [Option.getD_some]
      rw [id2token_of_token2id corpus tvs [c] ic hic,
        id2token_of_token2id corpus tvs END_OF_WORD ie hie]
      rfl
    · exact Or.inl h
  · rcases train_token2id_some corpus tvs hmem with ⟨im, him⟩
    constructor
    · rw [h]
      simp only [List.map_cons, List.map_nil]
      rw [him]
      simp only [Option.getD_some]
      rw [id2token_of_token2id corpus tvs _ im him]
      rfl
    · exact Or.inr h

theorem map_flatMap_tok (M : List ((Sym × Sym) × Sym)) (t2i : List (Sym × ℕ))
    (i2t : List (ℕ × Sym)) :
    ∀ cs : List Char,
      (∀ c ∈ cs, ((tokenize_word M [c]).map fun s => (lookupA s t2i).getD 0).map
          (fun i => (lookupA i i2t).getD []) = tokenize_word M [c]) →
      ((cs.flatMap fun c => (tokenize_word M [c]).map fun s => (lookupA s t2i).getD 0).map
          fun i => (lookupA i i2t).getD []) =
        cs.flatMap fun c => tokenize_word M [c] := by
  intro cs
  induction cs with
  | nil => intro _; rfl
  | cons c cs ih =>
    intro h
    rw [List.flatMap_cons, List.flatMap_cons, List.map_append,
      h c (List.mem_cons_self _ _), ih (fun x hx => h x (List.mem_cons_of_mem _ hx))]

theorem except_bind_ok {α β : Type} (a : α) (f : α → Except String β) :
    (Except.ok a >>= f) = f a := rfl

theorem TokensOf_flatMap (grp : Char → List Sym) :
    ∀ cs : List Char,
      (∀ c ∈ cs, grp c = [[c], END_OF_WORD] ∨ grp c = [[c] ++ END_OF_WORD]) →
      TokensOf cs (cs.flatMap grp) := by
  intro cs
  induction cs with
  | nil => intro _; exact TokensOf.nil
  | cons c cs ih =>
    intro h
    rw [List.flatMap_cons]
    rcases h c (List.mem_cons_self _ _) with hc | hc
    · rw [hc]
      exact TokensOf.split c cs _ (ih fun x hx => h x (List.mem_cons_of_mem _ hx))
    · rw [hc]
      exact TokensOf.merged c cs _ (ih fun x hx => h x (List.mem_cons_of_mem _ hx))

/-- C8 counterexample: on the codec trained on `"b b b abc abc"` with
`target_vocab_size = 20`, the input `"abb"` has first round trip
`t1 = "ab b"`, but the second round trip gives `"a b b" ≠ t1`: two round
trips do **not** reach a fixed point. -/
theorem claim_C8_counterexample :
    (roundTrip (BPETokenizer.train "b b b abc abc".toList 20) "abb".toList).toOption =
        some "ab b".toList ∧
      (roundTrip (BPETokenizer.train "b b b abc abc".toList 20) "ab b".toList).toOption =
        some "a b b".toList ∧
      "a b b".toList ≠ "ab b".toList :=
  ⟨by decide, by decide, by decide⟩

/-- C8 (amended): a single round trip need not be idempotent after two steps
(see the counterexample), but every text whose words are single known
characters is an exact fixed point of `decode ∘ encode`: if every word of the
text is one non-whitespace character other than `<` that the trained codec
maps to an id, and the end-of-word marker has an id, then decoding the
encoding returns the text verbatim. -/
theorem claim_C8_roundtrip (corpus : List Char) (tvs : ℕ) (cs : List Char)
    (hne : cs ≠ [])
    (hchars : ∀ c ∈ cs, ¬c.isWhitespace ∧ c ≠ '<' ∧
      (lookupA [c] (BPETokenizer.train corpus tvs).token2id).isSome = true)
    (heow : (lookupA END_OF_WORD (BPETokenizer.train corpus tvs).token2id).isSome = true) :
    roundTrip (BPETokenizer.train corpus tvs) (joinSpace (cs.map fun c => [c])) =
      .ok (joinSpace (cs.map fun c => [c])) := by
  have hch2 : ∀ c ∈ cs, ¬c.isWhitespace ∧ c ≠ '<' :=
    fun c hc => ⟨(hchars c hc).1, (hchars c hc).2.1⟩
  obtain ⟨c0, cs0, rfl⟩ : ∃ c0 cs0, cs = c0 :: cs0 := by
    cases cs with
    | nil => exact absurd rfl hne
    | cons a l => exact ⟨a, l, rfl⟩
  have htext_lt : '<' ∉ joinSpace ((c0 :: cs0).map fun c => [c]) := by
    intro hx
    rcases mem_joinSingle (c0 :: cs0) '<' hx with h | h
    · exact (hch2 '<' h).2 rfl
    · exact absurd h (by decide)
  have hsplit : splitSpecials (joinSpace ((c0 :: cs0).map fun c => [c])) =
      [joinSpace ((c0 :: cs0).map fun c => [c])] :=
    splitSpecials_no_special _ htext_lt
  have htext_ne : ¬joinSpace ((c0 :: cs0).map fun c => [c]) = [] := by
    rw [List.map_cons, joinSpace_eq_joinTail]
    simp
  have hnotspec : ¬joinSpace ((c0 :: cs0).map fun c => [c]) ∈ special_tokens := by
    intro hmem
    have h3 : joinSpace ((c0 :: cs0).map fun c => [c]) = "<EOS>".toList ∨
        joinSpace ((c0 :: cs0).map fun c => [c]) = "<EOP>".toList ∨
        joinSpace ((c0 :: cs0).map fun c => [c]) = "<EOT>".toList := by
      simpa [special_tokens] using hmem
    rcases h3 with h | h | h <;> rw [h] at htext_lt <;> exact htext_lt (by decide)
  have hwords : ∀ w ∈ (c0 :: cs0).map fun c => [c], w ≠ [] ∧ ∀ x ∈ w, ¬x.isWhitespace := by
    intro w hw
    rcases List.mem_map.mp hw with ⟨c, hc, rfl⟩
    refine ⟨by simp, fun x hx => ?_⟩
    have hxc : x = c := by simpa using hx
    exact hxc ▸ (hch2 c hc).1
  have hpysplit := pysplit_joinSpace ((c0 :: cs0).map fun c => [c]) hwords
  have ht2i : ¬(BPETokenizer.train corpus tvs).token2id = [] := by
    intro hnil
    rw [hnil] at heow
    exact absurd heow (by decide)
  rcases Option.isSome_iff_exists.mp heow with ⟨ie, hie⟩
  have hid2 := id2token_of_token2id corpus tvs END_OF_WORD ie hie
  have hi2t : ¬(BPETokenizer.train corpus tvs).id2token = [] := by
    intro hnil
    rw [hnil] at hid2
    exact absurd hid2 (by simp [lookupA])
  have henc : (BPETokenizer.train corpus tvs).encode
        (joinSpace ((c0 :: cs0).map fun c => [c])) =
      .ok ((c0 :: cs0).flatMap fun c =>
        (tokenize_word (BPETokenizer.train corpus tvs).merges [c]).map fun s =>
          (lookupA s (BPETokenizer.train corpus tvs).token2id).getD 0) := by
    rw [encode_ok_eq _ _ ht2i, hsplit]
    simp only [List.flatMap_cons, List.flatMap_nil, List.append_nil]
    rw [if_neg htext_ne, if_neg hnotspec, hpysplit, List.flatMap_map]
    rfl
  have hmaps := map_flatMap_tok (BPETokenizer.train corpus tvs).merges
    (BPETokenizer.train corpus tvs).token2id
    (BPETokenizer.train corpus tvs).id2token
    (c0 :: cs0)
    (fun c hc => (group_map_roundtrip corpus tvs c (hchars c hc).2.2 heow).1)
  have hTok : TokensOf (c0 :: cs0) ((c0 :: cs0).flatMap fun c =>
      tokenize_word (BPETokenizer.train corpus tvs).merges [c]) :=
    TokensOf_flatMap _ (c0 :: cs0)
      (fun c hc => (group_map_roundtrip corpus tvs c (hchars c hc).2.2 heow).2)
  rcases pass1_strong _ _ hTok hch2 with ⟨toks1, hT1, hJ1, _⟩
  have hJ2 := (pass2_strong _ _ hT1 hch2).1
  have hstrip : pystrip (joinSpace ((c0 :: cs0).map fun c => [c])) =
      joinSpace ((c0 :: cs0).map fun c => [c]) := by
    apply pystrip_eq_self
    · intro x hx
      rw [joinSingle_head] at hx
      have hxx : c0 = x := Option.some.inj hx
      exact hxx ▸ (hch2 c0 (List.mem_cons_self _ _)).1
    · intro x hx
      rcases joinSingle_last cs0 c0 with ⟨d, hd, hlast⟩
      rw [hlast] at hx
      have hxx : d = x := Option.some.inj hx
      exact hxx ▸ (hch2 d hd).1
  have hdec : (BPETokenizer.train corpus tvs).decode ((c0 :: cs0).flatMap fun c =>
      (tokenize_word (BPETokenizer.train corpus tvs).merges [c]).map fun s =>
        (lookupA s (BPETokenizer.train corpus tvs).token2id).getD 0) =
      .ok (joinSpace ((c0 :: cs0).map fun c => [c])) := by
    rw [decode_eq _ _ hi2t, hmaps, hJ1, hJ2, hstrip]
  unfold roundTrip
  rw [henc, except_bind_ok]
  exact hdec

/-- Witness for C8 on the corpus `"a b"` with `target_vocab_size = 0`: the
text `"a b"` round-trips verbatim. -/
theorem claim_C8_witness :
    roundTrip (BPETokenizer.train "a b".toList 0)
        (joinSpace ((['a', 'b'] : List Char).map fun c => [c])) =
      .ok (joinSpace ((['a', 'b'] : List Char).map fun c => [c])) :=
  claim_C8_roundtrip "a b".toList 0 ['a', 'b'] (by decide) (by decide) (by decide)

end Urdu
